import Mathlib

set_option maxRecDepth 100000

/-!
# Verification of the document-analysis core

A shallow embedding, in Lean 4, of the three core components of the
repository's backend (`backend/app/rag_engine.py`, `backend/app/vector_store.py`,
`backend/app/knowledge_graph.py`):

* the **Chunker** (`RAGEngine.chunk_text`),
* the **Similarity Index** (`VectorStore`),
* the **Knowledge Graph Builder** (`KnowledgeGraphBuilder`),

followed by theorems settling the specification claims about them.

Modelling conventions:

* Text is a `List Char`.  Character classes (`\s`, `\w`, `[A-Z]`, …) and case
  mappings are modelled at their ASCII meaning; the Python code manipulates
  `str` values whose relevant comparisons all concern ASCII characters.
* Python `float` vector arithmetic is modelled over `ℚ` (exact); rounding is
  abstracted away, which does not affect the ordering / sign facts proved here.
* Python `dict` / `collections.Counter` are modelled as insertion-ordered
  association lists, matching CPython's documented iteration order.
  Python `set` values are modelled as insertion-ordered duplicate-free lists;
  no claim proved below depends on the iteration order of a `set`.
* The embedding model (`sentence_transformers`) is an injected function
  `embed : String → List ℚ` (deterministic, per the spec §6).
* Possibly non-terminating loops (the chunking `while` loop) are given a fuel
  parameter; `none` means the fuel was exhausted.
-/

/-! ## ASCII character classes (Python `\s`, `\w`, `[A-Z]`, `[a-z]`, `[0-9]`) -/

/-- Python regex `\s` / `str.strip` whitespace, at its ASCII meaning:
space, tab, newline, carriage return, vertical tab, form feed. -/
def pySpace (c : Char) : Bool :=
  c.toNat = 32 || c.toNat = 9 || c.toNat = 10 || c.toNat = 13 ||
  c.toNat = 11 || c.toNat = 12

/-- `[A-Z]` (ASCII 65–90). -/
def isUpperAZ (c : Char) : Bool := 65 ≤ c.toNat && c.toNat ≤ 90

/-- `[a-z]` (ASCII 97–122). -/
def isLowerAZ (c : Char) : Bool := 97 ≤ c.toNat && c.toNat ≤ 122

/-- `[0-9]` (ASCII 48–57). -/
def isDigit09 (c : Char) : Bool := 48 ≤ c.toNat && c.toNat ≤ 57

/-- `[a-zA-Z]`. -/
def isAlphaAZ (c : Char) : Bool := isUpperAZ c || isLowerAZ c

/-- Python regex word character `\w` = `[a-zA-Z0-9_]` (ASCII view),
used for `\b` word boundaries. -/
def isWordCh (c : Char) : Bool :=
  isUpperAZ c || isLowerAZ c || isDigit09 c || c.toNat = 95

/-! ## Python string primitives -/

/-- `re.sub(r'\s+', ' ', text)`: every maximal run of whitespace is replaced
by a single space.  The `Bool` argument records whether the previous character
belonged to a whitespace run. -/
def collapseWsAux : Bool → List Char → List Char
  | _, [] => []
  | prevSpace, c :: cs =>
    if pySpace c then
      (if prevSpace then [] else [' ']) ++ collapseWsAux true cs
    else c :: collapseWsAux false cs

def collapseWs (l : List Char) : List Char := collapseWsAux false l

/-- Python `str.strip()`: remove whitespace from both ends. -/
def pyStrip (l : List Char) : List Char :=
  ((l.dropWhile pySpace).reverse.dropWhile pySpace).reverse

/-- The text normalisation performed at the top of `chunk_text`:
`re.sub(r'\s+', ' ', text).strip()`. -/
def normalizeText (l : List Char) : List Char := pyStrip (collapseWs l)

/-- Clamp one endpoint of a Python slice `s[a:b]` (step 1) to `[0, n]`:
negative indices count from the end. -/
def pySliceIdx (n : Nat) (a : Int) : Nat :=
  if a < 0 then ((n : Int) + a).toNat else min a.toNat n

/-- Python slice `s[a:b]` with `Int` endpoints (step 1). -/
def pySlice (s : List Char) (a b : Int) : List Char :=
  let lo := pySliceIdx s.length a
  let hi := pySliceIdx s.length b
  (s.drop lo).take (hi - lo)

/-- Does the two-character pattern `c1 c2` occur at the head of `l`? -/
def startsWith2 (c1 c2 : Char) : List Char → Bool
  | d1 :: d2 :: _ => d1 = c1 && d2 = c2
  | _ => false

/-- Python `str.rfind(sub)` for a two-character `sub`: the largest index at
which the pattern occurs, or `-1` if it does not occur. -/
def rfind2 (c1 c2 : Char) (s : List Char) : Int :=
  match ((List.range s.length).filter
      (fun i => startsWith2 c1 c2 (s.drop i))).getLast? with
  | some i => (i : Int)
  | none => -1

/-! ## The Chunker (`RAGEngine.chunk_text`)

`RAGEngine.__init__` fixes `chunk_size = 500` and `chunk_overlap = 50`; the
loop body is embedded with those two values as parameters `cs`, `ov` so that
the spec's claim about arbitrary configurations can be stated. -/

/-- One iteration of the `while start < text_length` loop of `chunk_text`:
returns the chunk emitted by this iteration (if any: a chunk that strips to
empty is dropped) and the next value of `start`.

The Python comparison `last_period > self.chunk_size * 0.5` is embedded as
`2 * last_period > cs`, which is equivalent for integer values (the factor
`0.5` is exact in binary floating point). -/
def chunkIter (cs ov : Nat) (text : List Char) (start : Int) :
    Option (List Char) × Int :=
  let e0 := start + (cs : Int)
  let e :=
    if e0 < (text.length : Int) then
      let chunk := pySlice text start e0
      let lastPeriod := max (rfind2 '.' ' ' chunk)
        (max (rfind2 '!' ' ' chunk) (rfind2 '?' ' ' chunk))
      if 2 * lastPeriod > (cs : Int) then start + lastPeriod + 1 else e0
    else e0
  let chunk := pyStrip (pySlice text start e)
  (if chunk = [] then none else some chunk, e - (ov : Int))

/-- The chunking loop, with fuel (`none` = fuel exhausted; the loop does not
terminate for every configuration). -/
def chunkLoop (cs ov : Nat) (text : List Char) :
    Nat → Int → List (List Char) → Option (List (List Char))
  | 0, start, acc =>
    if start < (text.length : Int) then none else some acc.reverse
  | fuel + 1, start, acc =>
    if start < (text.length : Int) then
      match chunkIter cs ov text start with
      | (some c, start') => chunkLoop cs ov text fuel start' (c :: acc)
      | (none, start') => chunkLoop cs ov text fuel start' acc
    else some acc.reverse

/-- `RAGEngine.chunk_text` with the constructor's configuration
(`chunk_size = 500`, `chunk_overlap = 50`).  With this configuration every
iteration advances `start` by at least `202`, so `length + 1` fuel always
suffices (see the claim C2 theorem below). -/
def chunk_text (text : List Char) : Option (List (List Char)) :=
  let t := normalizeText text
  if t.length = 0 then some [] else chunkLoop 500 50 t (t.length + 1) 0 []

/-! ### Stripping lemmas -/

theorem dropWhile_idem (p : Char → Bool) (l : List Char) :
    (l.dropWhile p).dropWhile p = l.dropWhile p := by
  induction l with
  | nil => rfl
  | cons c cs ih =>
    by_cases h : p c
    · simp [List.dropWhile_cons, h, ih]
    · simp [List.dropWhile_cons, h]

theorem dropWhile_eq_self_head (p : Char → Bool) (c : Char) (l : List Char)
    (h : (c :: l).dropWhile p = c :: l) : p c = false := by
  by_contra hb
  rw [Bool.not_eq_false] at hb
  rw [List.dropWhile_cons, if_pos hb] at h
  have h1 : (l.dropWhile p).length ≤ l.length := (List.dropWhile_sublist p).length_le
  have h2 := congrArg List.length h
  simp only [List.length_cons] at h2
  omega

theorem dropWhile_pyStrip (l : List Char) :
    (pyStrip l).dropWhile pySpace = pyStrip l := by
  have hmm : (l.dropWhile pySpace).dropWhile pySpace = l.dropWhile pySpace :=
    dropWhile_idem _ _
  obtain ⟨s, hs⟩ : ∃ s,
      s ++ (l.dropWhile pySpace).reverse.dropWhile pySpace
        = (l.dropWhile pySpace).reverse :=
    ⟨_, List.takeWhile_append_dropWhile pySpace _⟩
  have hpre : pyStrip l ++ s.reverse = l.dropWhile pySpace := by
    have h := congrArg List.reverse hs
    simpa [pyStrip, List.reverse_append] using h
  cases hps : pyStrip l with
  | nil => rfl
  | cons c cs =>
    have hform : l.dropWhile pySpace = c :: (cs ++ s.reverse) := by
      rw [← hpre, hps]; simp
    have hc : pySpace c = false := by
      apply dropWhile_eq_self_head pySpace c (cs ++ s.reverse)
      rw [← hform]; exact hmm
    simp [List.dropWhile_cons, hc]

theorem pyStrip_idem (l : List Char) : pyStrip (pyStrip l) = pyStrip l := by
  have h1 := dropWhile_pyStrip l
  show (((pyStrip l).dropWhile pySpace).reverse.dropWhile pySpace).reverse = pyStrip l
  rw [h1]
  have h2 : (pyStrip l).reverse = (l.dropWhile pySpace).reverse.dropWhile pySpace := by
    simp [pyStrip]
  rw [h2, dropWhile_idem]
  simp [pyStrip]

theorem pyStrip_normalizeText (l : List Char) :
    pyStrip (normalizeText l) = normalizeText l :=
  pyStrip_idem _

/-! ### Chunking loop lemmas -/

theorem chunkLoop_done (cs ov : Nat) (text : List Char) (fuel : Nat)
    (start : Int) (acc : List (List Char)) (h : ¬ start < (text.length : Int)) :
    chunkLoop cs ov text fuel start acc = some acc.reverse := by
  cases fuel <;> simp [chunkLoop, h]

/-- Next-`start` analysis of one loop iteration: if `chunk_overlap < chunk_size`
and `2 * chunk_overlap ≤ chunk_size + 2`, every iteration strictly advances
`start` (this covers the sentence-snap branch, whose snapped end exceeds
`start + chunk_size/2`). -/
theorem chunkIter_advances (cs ov : Nat) (text : List Char) (start : Int)
    (hov : ov < cs) (hov2 : 2 * ov ≤ cs + 2) :
    start < (chunkIter cs ov text start).2 := by
  unfold chunkIter
  by_cases h1 : start + (cs : Int) < (text.length : Int)
  · simp only [h1, if_true]
    set lp := max (rfind2 '.' ' ' (pySlice text start (start + (cs : Int))))
      (max (rfind2 '!' ' ' (pySlice text start (start + (cs : Int))))
        (rfind2 '?' ' ' (pySlice text start (start + (cs : Int))))) with hlp
    by_cases h2 : 2 * lp > (cs : Int)
    · simp only [h2, if_true]
      omega
    · simp only [h2, if_false]
      omega
  · simp only [h1, if_false]
    omega

theorem chunkLoop_terminates (cs ov : Nat) (text : List Char)
    (hov : ov < cs) (hov2 : 2 * ov ≤ cs + 2) :
    ∀ (fuel : Nat) (start : Int) (acc : List (List Char)),
      (text.length : Int) ≤ start + fuel →
      (chunkLoop cs ov text fuel start acc).isSome = true := by
  intro fuel
  induction fuel with
  | zero =>
    intro start acc h
    have : ¬ start < (text.length : Int) := by push_cast at h ⊢; omega
    rw [chunkLoop_done _ _ _ _ _ _ this]
    rfl
  | succ fuel ih =>
    intro start acc h
    by_cases hlt : start < (text.length : Int)
    · have hadv := chunkIter_advances cs ov text start hov hov2
      rcases hc : chunkIter cs ov text start with ⟨c?, st'⟩
      rw [hc] at hadv
      simp only at hadv
      have hfuel : (text.length : Int) ≤ st' + fuel := by push_cast at h ⊢; omega
      cases c? with
      | some c =>
        rw [chunkLoop, if_pos hlt, hc]
        exact ih st' (c :: acc) hfuel
      | none =>
        rw [chunkLoop, if_pos hlt, hc]
        exact ih st' acc hfuel
    · rw [chunkLoop_done _ _ _ _ _ _ hlt]
      rfl

example : chunk_text "  hello   world  ".toList = some ["hello world".toList] := by decide
example : chunkIter 10 8 "abcdefg. hijklmnop".toList 0 = (some "abcdefg.".toList, 0) := by decide

/-- The first loop iteration, on a normalized text of length at most
`450 = chunk_size - chunk_overlap`: the whole text is emitted as one chunk and
`start` jumps to `450`. -/
theorem chunkIter_at_zero (t : List Char) (h2 : t.length ≤ 450)
    (hs : pyStrip t = t) (hne : t ≠ []) :
    chunkIter 500 50 t 0 = (some t, 450) := by
  have hlt : ¬ ((0 : Int) + (500 : Nat) < (t.length : Int)) := by push_cast; omega
  simp only [chunkIter]
  rw [if_neg hlt]
  have hslice : pySlice t 0 ((0 : Int) + (500 : Nat)) = t := by
    show (t.drop (pySliceIdx t.length 0)).take (pySliceIdx t.length ((0:Int) + 500) - pySliceIdx t.length 0) = t
    have h0 : pySliceIdx t.length 0 = 0 := by simp [pySliceIdx]
    have h500 : pySliceIdx t.length ((0:Int) + 500) = t.length := by
      unfold pySliceIdx
      rw [if_neg (by omega)]
      have : ((0:Int) + 500).toNat = 500 := by decide
      rw [this]
      omega
    rw [h0, h500]
    simp
  rw [hslice, hs, if_neg hne]
  norm_num

/-- Claim C1 (corrected form): for every input string whose normalized form
(whitespace runs collapsed to single spaces, ends trimmed) is non-empty and has
at most `chunk_size - chunk_overlap = 450` characters, `chunk_text` returns
exactly one chunk, equal to the normalized text.  (The claim's bound
`< chunk_size` is refuted by `chunk_text_one_cex` below: lengths in
`(450, 500)` produce a second, overlap-only chunk.) -/
theorem chunk_text_one (s : List Char) (h1 : normalizeText s ≠ [])
    (h2 : (normalizeText s).length ≤ 450) :
    chunk_text s = some [normalizeText s] := by
  have hlen : ¬ (normalizeText s).length = 0 := by
    simpa [List.length_eq_zero] using h1
  show (if (normalizeText s).length = 0 then some [] else
    chunkLoop 500 50 (normalizeText s) ((normalizeText s).length + 1) 0 []) = _
  rw [if_neg hlen]
  have hpos : (0 : Int) < ((normalizeText s).length : Int) := by omega
  rw [chunkLoop, if_pos hpos,
    chunkIter_at_zero (normalizeText s) h2 (pyStrip_normalizeText s) h1]
  show chunkLoop 500 50 (normalizeText s) (normalizeText s).length 450 [normalizeText s]
    = some [normalizeText s]
  rw [chunkLoop_done _ _ _ _ _ _ (by omega)]
  rfl

/-- Claim C1, counterexample to the claim as stated: the 451-character input
`'a' * 451` normalizes to itself (non-empty, shorter than `chunk_size = 500`),
yet `chunk_text` returns two chunks (the full text and a 1-character tail),
not one. -/
theorem chunk_text_one_cex :
    normalizeText (List.replicate 451 'a') ≠ [] ∧
    (normalizeText (List.replicate 451 'a')).length < 500 ∧
    (chunk_text (List.replicate 451 'a')).map (List.map List.length) = some [451, 1] ∧
    (chunk_text (List.replicate 451 'a')).map List.length ≠ some 1 := by
  refine ⟨by decide, by decide, by decide, by decide⟩

/-- Witness for `chunk_text_one` at the concrete input `"hi there"`. -/
theorem chunk_text_one_witness :
    chunk_text "hi there".toList = some [normalizeText "hi there".toList] :=
  chunk_text_one "hi there".toList (by decide) (by decide)

/-- Claim C2 (corrected form): forward progress of the chunking loop holds for
every configuration with `chunk_overlap < chunk_size` **and**
`2 * chunk_overlap ≤ chunk_size + 2` (the second condition is what the
sentence-snap branch actually requires; the default configuration `500 / 50`
satisfies both); under those conditions the loop terminates, with
`text_length - start` fuel sufficing.  (The claim's weaker premise
`chunk_overlap < chunk_size` alone is refuted by `chunk_progress_cex`.) -/
theorem chunk_progress (cs ov : Nat) (text : List Char)
    (hov : ov < cs) (hov2 : 2 * ov ≤ cs + 2) :
    (∀ start : Int, start < (chunkIter cs ov text start).2) ∧
    (∀ (fuel : Nat) (start : Int) (acc : List (List Char)),
      (text.length : Int) ≤ start + fuel →
      (chunkLoop cs ov text fuel start acc).isSome = true) :=
  ⟨fun start => chunkIter_advances cs ov text start hov hov2,
   chunkLoop_terminates cs ov text hov hov2⟩

/-- Claim C2, counterexample to the claim as stated: with `chunk_size = 10`
and `chunk_overlap = 8 < 10`, on the text `"abcdefg. hijklmnop"` the
sentence-snap step shrinks the window's end to `8`, so the next start is
`8 - 8 = 0`: the loop revisits `start = 0` (no forward progress) and the
loop never terminates (any amount of fuel is exhausted; shown here for 50). -/
theorem chunk_progress_cex :
    8 < 10 ∧
    (0 : Int) < ("abcdefg. hijklmnop".toList.length : Int) ∧
    (chunkIter 10 8 "abcdefg. hijklmnop".toList 0).2 = 0 ∧
    chunkLoop 10 8 "abcdefg. hijklmnop".toList 50 0 [] = none := by
  refine ⟨by decide, by decide, by decide, by decide⟩

/-- Witness for `chunk_progress` at the default configuration `500 / 50` and a
concrete text. -/
theorem chunk_progress_witness :
    (0 : Int) < (chunkIter 500 50 "hello world".toList 0).2 ∧
    (chunkLoop 500 50 "hello world".toList 11 0 []).isSome = true :=
  ⟨(chunk_progress 500 50 "hello world".toList (by decide) (by decide)).1 0,
   (chunk_progress 500 50 "hello world".toList (by decide) (by decide)).2 11 0 []
     (by decide)⟩

/-! ## Python `enumerate` -/

def enumerateFrom {α : Type _} (k : Nat) : List α → List (Nat × α)
  | [] => []
  | a :: l => (k, a) :: enumerateFrom (k + 1) l

theorem length_enumerateFrom {α : Type _} (k : Nat) (l : List α) :
    (enumerateFrom k l).length = l.length := by
  induction l generalizing k with
  | nil => rfl
  | cons a l ih => simp [enumerateFrom, ih]

theorem map_snd_enumerateFrom {α : Type _} (k : Nat) (l : List α) :
    (enumerateFrom k l).map Prod.snd = l := by
  induction l generalizing k with
  | nil => rfl
  | cons a l ih => simp [enumerateFrom, ih]

theorem mem_enumerateFrom {α : Type _} {p : Nat × α} :
    ∀ {k : Nat} {l : List α}, p ∈ enumerateFrom k l →
      k ≤ p.1 ∧ p.1 < k + l.length ∧ p.2 ∈ l := by
  intro k l
  induction l generalizing k with
  | nil => intro h; simp [enumerateFrom] at h
  | cons a l ih =>
    intro h
    rw [enumerateFrom, List.mem_cons] at h
    rcases h with h | h
    · subst h
      exact ⟨le_refl _, by simp only [List.length_cons]; omega, by simp⟩
    · obtain ⟨h1, h2, h3⟩ := ih h
      exact ⟨by omega, by simp only [List.length_cons]; omega, by simp [h3]⟩

theorem get?_enumerateFrom {α : Type _} (j : Nat) :
    ∀ (k : Nat) (l : List α),
      (enumerateFrom k l).get? j = (l.get? j).map (fun a => (k + j, a)) := by
  induction j with
  | zero =>
    intro k l
    cases l <;> simp [enumerateFrom]
  | succ j ih =>
    intro k l
    cases l with
    | nil => simp [enumerateFrom]
    | cons a l =>
      simp only [enumerateFrom, List.get?_cons_succ, ih (k + 1) l]
      have : k + 1 + j = k + (j + 1) := by omega
      rw [this]

theorem filterMap_congr_mem {α β : Type _} {f g : α → Option β} :
    ∀ {l : List α}, (∀ a ∈ l, f a = g a) → l.filterMap f = l.filterMap g := by
  intro l
  induction l with
  | nil => intro _; rfl
  | cons a l ih =>
    intro h
    rw [List.filterMap_cons, List.filterMap_cons, h a (by simp),
      ih (fun x hx => h x (by simp [hx]))]

/-! ## The Similarity Index (`VectorStore`)

State: the fixed dimension, the stored vectors (rows of the faiss
`IndexFlatL2`), the parallel passage-text and metadata lists.  Construction
with no index file on disk gives the empty state (`_load_index` and
`_save_index` — on-disk persistence — are out of the analytic scope).
Only the `document_id` entry of a metadata dict is ever inspected by the
component, so metadata is modelled by that field plus the carried name. -/

structure PassageMeta where
  documentId : Option String
  documentName : String
deriving DecidableEq, Inhabited, Repr

structure VState where
  dimension : Nat
  vectors : List (List ℚ)
  texts : List String
  metadata : List PassageMeta
deriving DecidableEq, Repr

/-- `VectorStore.__init__` (no index file on disk). -/
def emptyStore (d : Nat) : VState := ⟨d, [], [], []⟩

/-- Squared L2 distance between a query and a stored vector. -/
def sqDist (q v : List ℚ) : ℚ := ((q.zip v).map (fun p => (p.1 - p.2) ^ 2)).sum

/-- The score conversion of `similarity_search`: `score = 1 / (1 + distance)`. -/
def scoreOf (d : ℚ) : ℚ := 1 / (1 + d)

/-! ### A stable sort (structural recursion, so that concrete states remain
kernel-computable).  `sortByLe le` with a reflexive-on-ties `le` produces the
stable sort that Python's `sorted` / `Counter.most_common` performs: an
earlier element stays before a later one whenever `le` holds between them. -/

def insertLe {α : Type _} (le : α → α → Bool) (a : α) : List α → List α
  | [] => [a]
  | b :: l => if le a b then a :: b :: l else b :: insertLe le a l

def sortByLe {α : Type _} (le : α → α → Bool) : List α → List α
  | [] => []
  | a :: l => insertLe le a (sortByLe le l)

theorem insertLe_perm {α : Type _} (le : α → α → Bool) (a : α) (l : List α) :
    (insertLe le a l).Perm (a :: l) := by
  induction l with
  | nil => exact List.Perm.refl _
  | cons b l ih =>
    by_cases h : le a b = true
    · rw [insertLe, if_pos h]
    · rw [insertLe, if_neg h]
      exact (ih.cons b).trans (List.Perm.swap a b l)

theorem sortByLe_perm {α : Type _} (le : α → α → Bool) (l : List α) :
    (sortByLe le l).Perm l := by
  induction l with
  | nil => exact List.Perm.refl _
  | cons a l ih => exact (insertLe_perm le a (sortByLe le l)).trans (ih.cons a)

theorem length_sortByLe {α : Type _} (le : α → α → Bool) (l : List α) :
    (sortByLe le l).length = l.length :=
  (sortByLe_perm le l).length_eq

theorem pairwise_insertLe {α : Type _} (le : α → α → Bool)
    (htrans : ∀ a b c, le a b = true → le b c = true → le a c = true)
    (htotal : ∀ a b, le a b = true ∨ le b a = true)
    (a : α) (l : List α) (hl : l.Pairwise (fun x y => le x y = true)) :
    (insertLe le a l).Pairwise (fun x y => le x y = true) := by
  induction l with
  | nil => simp [insertLe]
  | cons b l ih =>
    rw [List.pairwise_cons] at hl
    obtain ⟨hb, hl'⟩ := hl
    by_cases h : le a b = true
    · rw [insertLe, if_pos h]
      refine List.Pairwise.cons ?_ (List.Pairwise.cons hb hl')
      intro x hx
      rcases List.mem_cons.mp hx with rfl | hx
      · exact h
      · exact htrans a b x h (hb x hx)
    · rw [insertLe, if_neg h]
      have hba : le b a = true := (htotal a b).resolve_left h
      refine List.Pairwise.cons ?_ (ih hl')
      intro x hx
      have hx' := (insertLe_perm le a l).mem_iff.mp hx
      rcases List.mem_cons.mp hx' with rfl | hx'
      · exact hba
      · exact hb x hx'

theorem pairwise_sortByLe {α : Type _} (le : α → α → Bool)
    (htrans : ∀ a b c, le a b = true → le b c = true → le a c = true)
    (htotal : ∀ a b, le a b = true ∨ le b a = true) (l : List α) :
    (sortByLe le l).Pairwise (fun x y => le x y = true) := by
  induction l with
  | nil => simp [sortByLe]
  | cons a l ih => exact pairwise_insertLe le htrans htotal a _ ih

/-- Comparison used to model faiss result ordering: ascending distance, ties
broken by ascending stored index (= insertion order). -/
def faissLe (a b : Nat × ℚ) : Bool := decide (a.2 < b.2 ∨ (a.2 = b.2 ∧ a.1 ≤ b.1))

/-- Modelled from the spec: `faiss.IndexFlatL2.search` is third-party library
code, not part of this repository's sources.  Per spec §4.2 it performs exact
nearest-neighbour search by squared L2 distance, returning the `k` best
`(index, distance)` pairs "ordered by ascending distance", with "ties in
distance break by original insertion order (stable)". -/
def faissSearch (vecs : List (List ℚ)) (q : List ℚ) (k : Nat) : List (Nat × ℚ) :=
  (sortByLe faissLe ((enumerateFrom 0 vecs).map (fun p => (p.1, sqDist q p.2)))).take k

structure SearchResult where
  text : String
  metadata : PassageMeta
  score : ℚ
  rank : Nat
deriving DecidableEq, Repr

/-- `VectorStore.similarity_search`.  The query string is embedded via the
injected embedding function; `min(top_k, ntotal)` neighbours are retrieved and
formatted, keeping only hits whose index is in range of the text list (under
the parallel-lists invariant every hit is). -/
def similarity_search (embed : String → List ℚ) (s : VState) (query : String)
    (k : Nat) : List SearchResult :=
  if s.vectors.length = 0 then []
  else
    let pairs := faissSearch s.vectors (embed query) (min k s.vectors.length)
    (enumerateFrom 0 pairs).filterMap (fun ip =>
      if ip.2.1 < s.texts.length then
        some { text := s.texts.getD ip.2.1 ""
               metadata := s.metadata.getD ip.2.1 default
               score := scoreOf ip.2.2
               rank := ip.1 + 1 }
      else none)

/-- `VectorStore.add_chunks`: append embeddings (provided, or generated from
the chunks), texts and metadata in lockstep; return the new positional ids. -/
def add_chunks (embed : String → List ℚ) (s : VState) (chunks : List String)
    (metadata : List PassageMeta) (embeddings? : Option (List (List ℚ))) :
    VState × List Nat :=
  let embs := match embeddings? with
    | some e => e
    | none => chunks.map embed
  let startId := s.texts.length
  ({ s with vectors := s.vectors ++ embs,
            texts := s.texts ++ chunks,
            metadata := s.metadata ++ metadata },
   List.range' startId chunks.length)

/-- The `indices_to_keep` list of `delete_document`. -/
def keepIndices (metadata : List PassageMeta) (docId : String) : List Nat :=
  ((enumerateFrom 0 metadata).filter
    (fun p => decide (p.2.documentId ≠ some docId))).map Prod.fst

/-- `VectorStore.delete_document`: no-op when every metadata entry survives;
otherwise rebuild the whole index from the surviving chunks, re-embedding
their texts (an empty survivor set leaves a fresh empty index of the same
dimension). -/
def delete_document (embed : String → List ℚ) (s : VState) (docId : String) :
    VState :=
  let keep := keepIndices s.metadata docId
  if keep.length = s.metadata.length then s
  else
    let remTexts := keep.filterMap (fun i => s.texts.get? i)
    let remMeta := keep.filterMap (fun i => s.metadata.get? i)
    { s with
      vectors := if remTexts.isEmpty then [] else remTexts.map embed,
      texts := remTexts,
      metadata := remMeta }

/-- `VectorStore.get_size`: the vector count (`index.ntotal`). -/
def get_size (s : VState) : Nat := s.vectors.length

/-- `VectorStore.clear`. -/
def clear (s : VState) : VState :=
  { s with vectors := [], texts := [], metadata := [] }

/-! ### Index bookkeeping lemmas for `delete_document` -/

theorem filterMap_get_enumFilter {α β : Type _} (pB : β → Bool) :
    ∀ (l2 : List β) (k : Nat) (l1 : List α), l1.length = l2.length →
    (((enumerateFrom k l2).filter (fun p => pB p.2)).map Prod.fst).filterMap
        (fun i => l1.get? (i - k))
      = ((l1.zip l2).filter (fun p => pB p.2)).map Prod.fst := by
  intro l2
  induction l2 with
  | nil =>
    intro k l1 h
    have : l1 = [] := List.length_eq_zero.mp (by simpa using h)
    subst this; rfl
  | cons b l2 ih =>
    intro k l1 h
    cases l1 with
    | nil => simp at h
    | cons a l1 =>
      have hlen : l1.length = l2.length := by simpa using h
      have hcong :
          (((enumerateFrom (k + 1) l2).filter (fun p => pB p.2)).map Prod.fst).filterMap
              (fun i => (a :: l1).get? (i - k))
            = (((enumerateFrom (k + 1) l2).filter (fun p => pB p.2)).map Prod.fst).filterMap
              (fun i => l1.get? (i - (k + 1))) := by
        apply filterMap_congr_mem
        intro i hi
        obtain ⟨p, hp, rfl⟩ := List.mem_map.mp hi
        have hge : k + 1 ≤ p.1 := (mem_enumerateFrom (List.mem_of_mem_filter hp)).1
        have hstep : p.1 - k = (p.1 - (k + 1)) + 1 := by omega
        rw [hstep, List.get?_cons_succ]
      show (((((k, b) :: enumerateFrom (k + 1) l2)).filter (fun p => pB p.2)).map
          Prod.fst).filterMap (fun i => (a :: l1).get? (i - k))
        = ((((a, b) :: l1.zip l2)).filter (fun p => pB p.2)).map Prod.fst
      by_cases hb : pB b
      · rw [List.filter_cons, if_pos (by simpa using hb),
          List.filter_cons, if_pos (by simpa using hb), List.map_cons, List.map_cons]
        show List.filterMap (fun i => (a :: l1).get? (i - k))
            (k :: ((enumerateFrom (k + 1) l2).filter (fun p => pB p.2)).map Prod.fst)
          = a :: ((l1.zip l2).filter (fun p => pB p.2)).map Prod.fst
        rw [List.filterMap_cons]
        simp only [Nat.sub_self, List.get?_cons_zero]
        rw [hcong, ih (k + 1) l1 hlen]
      · rw [List.filter_cons, if_neg (by simpa using hb),
          List.filter_cons, if_neg (by simpa using hb),
          hcong, ih (k + 1) l1 hlen]

theorem zip_self_filter {β : Type _} (pB : β → Bool) (l : List β) :
    ((l.zip l).filter (fun p => pB p.2)).map Prod.fst = l.filter pB := by
  induction l with
  | nil => rfl
  | cons b l ih =>
    show (((b, b) :: l.zip l).filter (fun p => pB p.2)).map Prod.fst = _
    by_cases hb : pB b
    · rw [List.filter_cons, if_pos (by simpa using hb), List.filter_cons, if_pos hb,
        List.map_cons, ih]
    · rw [List.filter_cons, if_neg (by simpa using hb), List.filter_cons, if_neg hb, ih]

theorem zip_filter_length {α β : Type _} (pB : β → Bool) :
    ∀ (l2 : List β) (l1 : List α), l1.length = l2.length →
      ((l1.zip l2).filter (fun p => pB p.2)).length = (l2.filter pB).length := by
  intro l2
  induction l2 with
  | nil => intro l1 h; simp
  | cons b l2 ih =>
    intro l1 h
    cases l1 with
    | nil => simp at h
    | cons a l1 =>
      have hlen : l1.length = l2.length := by simpa using h
      show (((a, b) :: l1.zip l2).filter (fun p => pB p.2)).length
        = ((b :: l2).filter pB).length
      by_cases hb : pB b
      · rw [List.filter_cons, if_pos (by simpa using hb), List.filter_cons, if_pos hb]
        simp [ih l1 hlen]
      · rw [List.filter_cons, if_neg (by simpa using hb), List.filter_cons, if_neg hb,
          ih l1 hlen]

theorem keepIndices_filterMap {α : Type _} (l1 : List α) (metadata : List PassageMeta)
    (docId : String) (h : l1.length = metadata.length) :
    (keepIndices metadata docId).filterMap (fun i => l1.get? i)
      = ((l1.zip metadata).filter
          (fun p => decide (p.2.documentId ≠ some docId))).map Prod.fst := by
  have hmain := filterMap_get_enumFilter
    (fun m => decide (m.documentId ≠ some docId)) metadata 0 l1 h
  rw [← hmain]
  apply filterMap_congr_mem
  intro i _
  simp

theorem keepIndices_all_iff (metadata : List PassageMeta) (docId : String) :
    (keepIndices metadata docId).length = metadata.length ↔
      ∀ m ∈ metadata, m.documentId ≠ some docId := by
  unfold keepIndices
  rw [List.length_map]
  constructor
  · intro h m hm
    have hm' : m ∈ (enumerateFrom 0 metadata).map Prod.snd := by
      rw [map_snd_enumerateFrom]; exact hm
    obtain ⟨p, hp, hpm⟩ := List.mem_map.mp hm'
    have hall : ∀ p ∈ enumerateFrom 0 metadata,
        (decide (p.2.documentId ≠ some docId)) = true := by
      apply List.filter_length_eq_length.mp
      rw [h, length_enumerateFrom]
    have := hall p hp
    rw [hpm] at this
    simpa using this
  · intro h
    rw [← length_enumerateFrom 0 metadata]
    apply List.filter_length_eq_length.mpr
    intro p hp
    have := (mem_enumerateFrom hp).2.2
    simpa using h p.2 this

/-- The metadata-survival predicate of `delete_document`. -/
def keepMeta (docId : String) (m : PassageMeta) : Bool :=
  decide (m.documentId ≠ some docId)

/-- Claim C4: for every index state (satisfying the parallel-lists invariant)
and every `document_id`: if no stored passage is owned by it,
`delete_document` leaves the state unchanged; if some passage matches, the
surviving passage texts and metadata are exactly the non-matching ones in
their original relative order, the vector count drops by exactly the number
of matching passages, and if nothing survives the index is reset to zero
vectors. -/
theorem delete_document_frame (embed : String → List ℚ) (s : VState)
    (docId : String)
    (ht : s.texts.length = s.metadata.length)
    (hv : s.vectors.length = s.metadata.length) :
    ((∀ m ∈ s.metadata, m.documentId ≠ some docId) →
      delete_document embed s docId = s) ∧
    ((∃ m ∈ s.metadata, m.documentId = some docId) →
      (delete_document embed s docId).texts
        = ((s.texts.zip s.metadata).filter (fun p => keepMeta docId p.2)).map Prod.fst ∧
      (delete_document embed s docId).metadata
        = s.metadata.filter (keepMeta docId) ∧
      get_size (delete_document embed s docId)
          + s.metadata.countP (fun m => decide (m.documentId = some docId))
        = get_size s ∧
      ((∀ m ∈ s.metadata, m.documentId = some docId) →
        (delete_document embed s docId).vectors = [])) := by
  constructor
  · intro hall
    have hlen : (keepIndices s.metadata docId).length = s.metadata.length :=
      (keepIndices_all_iff s.metadata docId).mpr hall
    simp only [delete_document, hlen, if_true]
  · intro hex
    have hne : ¬ (keepIndices s.metadata docId).length = s.metadata.length := by
      intro hlen
      obtain ⟨m, hm, hmid⟩ := hex
      exact ((keepIndices_all_iff s.metadata docId).mp hlen m hm) hmid
    have htexts : (keepIndices s.metadata docId).filterMap (fun i => s.texts.get? i)
        = ((s.texts.zip s.metadata).filter (fun p => keepMeta docId p.2)).map Prod.fst :=
      keepIndices_filterMap s.texts s.metadata docId ht
    have hmeta : (keepIndices s.metadata docId).filterMap (fun i => s.metadata.get? i)
        = s.metadata.filter (keepMeta docId) := by
      rw [keepIndices_filterMap s.metadata s.metadata docId rfl]
      exact zip_self_filter (keepMeta docId) s.metadata
    have hlenT : ((keepIndices s.metadata docId).filterMap
        (fun i => s.texts.get? i)).length = (s.metadata.filter (keepMeta docId)).length := by
      rw [htexts, List.length_map]
      exact zip_filter_length (fun m => keepMeta docId m) s.metadata s.texts ht
    refine ⟨?_, ?_, ?_, ?_⟩
    · simp only [delete_document, hne, if_false]
      exact htexts
    · simp only [delete_document, hne, if_false]
      exact hmeta
    · simp only [delete_document, get_size, hne, if_false]
      have hvlen : (if ((keepIndices s.metadata docId).filterMap
            (fun i => s.texts.get? i)).isEmpty then ([] : List (List ℚ))
          else ((keepIndices s.metadata docId).filterMap
            (fun i => s.texts.get? i)).map embed).length
          = ((keepIndices s.metadata docId).filterMap (fun i => s.texts.get? i)).length := by
        by_cases he : ((keepIndices s.metadata docId).filterMap
            (fun i => s.texts.get? i)).isEmpty
        · rw [if_pos he]
          rw [List.isEmpty_iff] at he
          rw [he]
          rfl
        · rw [if_neg he, List.length_map]
      rw [hvlen, hlenT, hv]
      have hsplit := List.length_eq_countP_add_countP
        (p := keepMeta docId) (l := s.metadata)
      have hcompl : s.metadata.countP (fun m => decide (m.documentId = some docId))
          = s.metadata.countP (fun m => ¬ keepMeta docId m) := by
        apply List.countP_congr
        intro m _
        simp [keepMeta]
      rw [hcompl, ← List.countP_eq_length_filter]
      omega
    · intro hall
      simp only [delete_document, hne, if_false]
      have hnil : (keepIndices s.metadata docId).filterMap (fun i => s.texts.get? i) = [] := by
        rw [htexts]
        have : (s.texts.zip s.metadata).filter (fun p => keepMeta docId p.2) = [] := by
          rw [List.filter_eq_nil_iff]
          intro p hp
          have hmem := (List.of_mem_zip hp).2
          simp [keepMeta, hall p.2 hmem]
        rw [this]; rfl
      rw [hnil]
      rfl

/-- Witness for `delete_document_frame`: deleting an absent `document_id`
from a one-passage store leaves it unchanged. -/
theorem delete_document_frame_witness :
    delete_document (fun _ => [(0 : ℚ)])
      ⟨1, [[(1 : ℚ)]], ["t"], [⟨some "d", "n"⟩]⟩ "x"
      = ⟨1, [[(1 : ℚ)]], ["t"], [⟨some "d", "n"⟩]⟩ :=
  (delete_document_frame (fun _ => [(0 : ℚ)])
      ⟨1, [[(1 : ℚ)]], ["t"], [⟨some "d", "n"⟩]⟩ "x" (by decide) (by decide)).1
    (by decide)

/-- The parallel-lists invariant of the Similarity Index. -/
def storeInv (s : VState) : Prop :=
  s.vectors.length = s.texts.length ∧ s.texts.length = s.metadata.length

/-- Claim C5: the vector count equals the passage-text count and the metadata
count after every public operation — construction, `add_chunks` with
equal-length inputs, `delete_document`, `clear` — with the three lists kept
positionally aligned (`add_chunks` appends them in lockstep), and `get_size`
reports the common length. -/
theorem store_lockstep (embed : String → List ℚ) (D : Nat) (s : VState)
    (chunks : List String) (metadata : List PassageMeta)
    (embeddings? : Option (List (List ℚ))) (docId : String) :
    storeInv (emptyStore D) ∧
    (storeInv s → chunks.length = metadata.length →
      (∀ e, embeddings? = some e → e.length = chunks.length) →
      storeInv (add_chunks embed s chunks metadata embeddings?).1 ∧
      (add_chunks embed s chunks metadata embeddings?).1.vectors
        = s.vectors ++ embeddings?.getD (chunks.map embed) ∧
      (add_chunks embed s chunks metadata embeddings?).1.texts = s.texts ++ chunks ∧
      (add_chunks embed s chunks metadata embeddings?).1.metadata
        = s.metadata ++ metadata ∧
      get_size (add_chunks embed s chunks metadata embeddings?).1
        = get_size s + chunks.length) ∧
    (storeInv s → storeInv (delete_document embed s docId)) ∧
    storeInv (clear s) ∧
    (storeInv s → get_size s = s.texts.length ∧ get_size s = s.metadata.length) := by
  refine ⟨⟨rfl, rfl⟩, ?_, ?_, ⟨rfl, rfl⟩, ?_⟩
  · intro hinv hc hemb
    have hembs : (match embeddings? with
        | some e => e
        | none => chunks.map embed).length = chunks.length := by
      cases embeddings? with
      | some e => exact hemb e rfl
      | none => simp
    have hveq : (add_chunks embed s chunks metadata embeddings?).1.vectors
        = s.vectors ++ embeddings?.getD (chunks.map embed) := by
      cases embeddings? <;> rfl
    refine ⟨⟨?_, ?_⟩, hveq, rfl, rfl, ?_⟩
    · show (s.vectors ++ _).length = (s.texts ++ chunks).length
      simp only [List.length_append, hembs, hinv.1]
    · show (s.texts ++ chunks).length = (s.metadata ++ metadata).length
      simp only [List.length_append, hinv.2, hc]
    · show (s.vectors ++ _).length = s.vectors.length + chunks.length
      simp only [List.length_append, hembs]
  · intro hinv
    by_cases hkeep : (keepIndices s.metadata docId).length = s.metadata.length
    · simp only [delete_document, hkeep, if_true]
      exact hinv
    · have ht : s.texts.length = s.metadata.length := hinv.2
      have htexts := keepIndices_filterMap s.texts s.metadata docId ht
      have hmeta : (keepIndices s.metadata docId).filterMap (fun i => s.metadata.get? i)
          = s.metadata.filter (keepMeta docId) := by
        rw [keepIndices_filterMap s.metadata s.metadata docId rfl]
        exact zip_self_filter (keepMeta docId) s.metadata
      have hlenT : ((keepIndices s.metadata docId).filterMap
          (fun i => s.texts.get? i)).length
          = (s.metadata.filter (keepMeta docId)).length := by
        rw [htexts, List.length_map]
        exact zip_filter_length (fun m => keepMeta docId m) s.metadata s.texts ht
      have hvec : (if ((keepIndices s.metadata docId).filterMap
            (fun i => s.texts.get? i)).isEmpty then ([] : List (List ℚ))
          else ((keepIndices s.metadata docId).filterMap
            (fun i => s.texts.get? i)).map embed).length
          = ((keepIndices s.metadata docId).filterMap (fun i => s.texts.get? i)).length := by
        by_cases he : ((keepIndices s.metadata docId).filterMap
            (fun i => s.texts.get? i)).isEmpty
        · rw [if_pos he]
          rw [List.isEmpty_iff] at he
          rw [he]
          rfl
        · rw [if_neg he, List.length_map]
      simp only [delete_document, hkeep, if_false]
      refine ⟨hvec, ?_⟩
      show ((keepIndices s.metadata docId).filterMap (fun i => s.texts.get? i)).length
          = ((keepIndices s.metadata docId).filterMap (fun i => s.metadata.get? i)).length
      rw [hlenT, hmeta]
  · intro hinv
    exact ⟨hinv.1, hinv.1.trans hinv.2⟩

/-- Witness for `store_lockstep`: the invariant after adding one chunk to the
empty store and after a delete. -/
theorem store_lockstep_witness :
    storeInv (add_chunks (fun _ => [(0 : ℚ)]) (emptyStore 1) ["c"]
      [⟨some "d", "n"⟩] none).1 ∧
    storeInv (delete_document (fun _ => [(0 : ℚ)])
      ⟨1, [[(1 : ℚ)]], ["t"], [⟨some "d", "n"⟩]⟩ "d") :=
  ⟨((store_lockstep (fun _ => [(0 : ℚ)]) 1 (emptyStore 1) ["c"] [⟨some "d", "n"⟩]
      none "d").2.1 ⟨rfl, rfl⟩ rfl (fun e he => by cases he)).1,
   (store_lockstep (fun _ => [(0 : ℚ)]) 1
      ⟨1, [[(1 : ℚ)]], ["t"], [⟨some "d", "n"⟩]⟩ [] [] none "d").2.2.1
     ⟨by decide, by decide⟩⟩

/-! ### Search-ordering lemmas for `similarity_search` -/

theorem faissLe_trans (a b c : Nat × ℚ) (h1 : faissLe a b = true)
    (h2 : faissLe b c = true) : faissLe a c = true := by
  simp only [faissLe, decide_eq_true_eq] at h1 h2 ⊢
  rcases h1 with h1 | ⟨h1e, h1i⟩ <;> rcases h2 with h2 | ⟨h2e, h2i⟩
  · exact Or.inl (h1.trans h2)
  · exact Or.inl (h2e ▸ h1)
  · exact Or.inl (h1e ▸ h2)
  · exact Or.inr ⟨h1e.trans h2e, h1i.trans h2i⟩

theorem faissLe_total (a b : Nat × ℚ) : faissLe a b || faissLe b a := by
  simp only [faissLe, Bool.or_eq_true, decide_eq_true_eq]
  rcases lt_trichotomy a.2 b.2 with h | h | h
  · exact Or.inl (Or.inl h)
  · rcases Nat.le_total a.1 b.1 with hi | hi
    · exact Or.inl (Or.inr ⟨h, hi⟩)
    · exact Or.inr (Or.inr ⟨h.symm, hi⟩)
  · exact Or.inr (Or.inl h)

theorem filterMap_eq_map_of_mem {α β : Type _} {f : α → Option β} {g : α → β} :
    ∀ {l : List α}, (∀ a ∈ l, f a = some (g a)) → l.filterMap f = l.map g := by
  intro l
  induction l with
  | nil => intro _; rfl
  | cons a l ih =>
    intro h
    rw [List.filterMap_cons_some (h a (by simp)), List.map_cons,
      ih (fun x hx => h x (by simp [hx]))]

theorem get?_of_mem_enumerateFrom {α : Type _} {p : Nat × α} :
    ∀ {k : Nat} {l : List α}, p ∈ enumerateFrom k l → l.get? (p.1 - k) = some p.2 := by
  intro k l
  induction l generalizing k with
  | nil => intro h; simp [enumerateFrom] at h
  | cons a l ih =>
    intro h
    rw [enumerateFrom, List.mem_cons] at h
    rcases h with h | h
    · subst h; simp
    · have hge : k + 1 ≤ p.1 := (mem_enumerateFrom h).1
      have hstep : p.1 - k = (p.1 - (k + 1)) + 1 := by omega
      rw [hstep, List.get?_cons_succ]
      exact ih h

theorem map_fst_enumerateFrom {α : Type _} (k : Nat) (l : List α) :
    (enumerateFrom k l).map Prod.fst = List.range' k l.length := by
  induction l generalizing k with
  | nil => rfl
  | cons a l ih => simp [enumerateFrom, List.range'_succ, ih]

theorem sqDist_nonneg (q v : List ℚ) : 0 ≤ sqDist q v := by
  apply List.sum_nonneg
  intro x hx
  obtain ⟨p, _, rfl⟩ := List.mem_map.mp hx
  positivity

theorem scoreOf_pos {d : ℚ} (h : 0 ≤ d) : 0 < scoreOf d := by
  rw [scoreOf]
  positivity

theorem scoreOf_le_one {d : ℚ} (h : 0 ≤ d) : scoreOf d ≤ 1 := by
  rw [scoreOf, div_le_one (by linarith)]
  linarith

theorem scoreOf_strictAnti {d1 d2 : ℚ} (h1 : 0 ≤ d1) (h2 : d1 < d2) :
    scoreOf d2 < scoreOf d1 := by
  rw [scoreOf, scoreOf, div_lt_div_iff₀ (by linarith) (by linarith)]
  linarith

theorem faissSearch_length (vecs : List (List ℚ)) (q : List ℚ) (k : Nat) :
    (faissSearch vecs q k).length = min k vecs.length := by
  unfold faissSearch
  rw [List.length_take, length_sortByLe, List.length_map, length_enumerateFrom]

theorem faissSearch_mem (vecs : List (List ℚ)) (q : List ℚ) (k : Nat)
    (p : Nat × ℚ) (hp : p ∈ faissSearch vecs q k) :
    p.1 < vecs.length ∧ p.2 = sqDist q (vecs.getD p.1 []) := by
  have hp1 : p ∈ sortByLe faissLe ((enumerateFrom 0 vecs).map
      (fun q' => (q'.1, sqDist q q'.2))) :=
    List.mem_of_mem_take hp
  rw [(sortByLe_perm faissLe _).mem_iff] at hp1
  obtain ⟨q', hq', rfl⟩ := List.mem_map.mp hp1
  have hlt := (mem_enumerateFrom hq').2.1
  have hget := get?_of_mem_enumerateFrom hq'
  simp only [Nat.sub_zero] at hget
  refine ⟨by simpa using hlt, ?_⟩
  show sqDist q q'.2 = sqDist q (vecs.getD q'.1 [])
  rw [List.getD_eq_getD_get?, hget]
  rfl

theorem faissSearch_pairwise (vecs : List (List ℚ)) (q : List ℚ) (k : Nat) :
    List.Pairwise (fun a b => a.2 < b.2 ∨ (a.2 = b.2 ∧ a.1 < b.1))
      (faissSearch vecs q k) := by
  have htotal : ∀ a b : Nat × ℚ, faissLe a b = true ∨ faissLe b a = true :=
    fun a b => (Bool.or_eq_true _ _).mp (faissLe_total a b)
  have hle : (sortByLe faissLe ((enumerateFrom 0 vecs).map
      (fun q' => (q'.1, sqDist q q'.2)))).Pairwise
      (fun a b => faissLe a b = true) :=
    pairwise_sortByLe faissLe faissLe_trans htotal _
  have hfst : ((enumerateFrom 0 vecs).map
      (fun q' => (q'.1, sqDist q q'.2))).map Prod.fst = List.range' 0 vecs.length := by
    rw [List.map_map]
    show ((enumerateFrom 0 vecs).map Prod.fst) = _
    rw [map_fst_enumerateFrom]
  have hperm : (((sortByLe faissLe ((enumerateFrom 0 vecs).map
      (fun q' => (q'.1, sqDist q q'.2)))).map Prod.fst)).Perm
      (((enumerateFrom 0 vecs).map (fun q' => (q'.1, sqDist q q'.2))).map Prod.fst) :=
    (sortByLe_perm faissLe _).map _
  have hnd : ((sortByLe faissLe ((enumerateFrom 0 vecs).map
      (fun q' => (q'.1, sqDist q q'.2)))).map Prod.fst).Nodup := by
    rw [hperm.nodup_iff, hfst]
    exact List.nodup_range' _ _
  have hne : (sortByLe faissLe ((enumerateFrom 0 vecs).map
      (fun q' => (q'.1, sqDist q q'.2)))).Pairwise
      (fun a b => a.1 ≠ b.1) := by
    rw [List.Nodup, List.pairwise_map] at hnd
    exact hnd
  have hboth := List.Pairwise.sublist (List.take_sublist k _) (hle.and hne)
  apply hboth.imp
  intro a b hab
  obtain ⟨hab1, hab2⟩ := hab
  simp only [faissLe, decide_eq_true_eq] at hab1
  rcases hab1 with h | ⟨he, hi⟩
  · exact Or.inl h
  · exact Or.inr ⟨he, Nat.lt_of_le_of_ne hi hab2⟩

/-- Claim C3: `similarity_search` on an empty index returns the empty
sequence; otherwise (in fact always) it returns exactly
`min(k, size())` results, namely the faiss hits formatted in order — ordered
by non-decreasing squared L2 distance with ties broken by insertion order —
each hit carrying `score = 1 / (1 + distance)` lying in `(0, 1]` (and the
score function is strictly decreasing in the distance), and the `j`-th result
(0-based) carrying the 1-based rank `j + 1`; `k = 0` and `k > size()` are
handled by the same clamped formula `min k size`. -/
theorem similarity_search_spec (embed : String → List ℚ) (s : VState)
    (query : String) (k : Nat)
    (ht : s.vectors.length = s.texts.length)
    (hm : s.vectors.length = s.metadata.length) :
    (s.vectors.length = 0 → similarity_search embed s query k = []) ∧
    (similarity_search embed s query k).length = min k s.vectors.length ∧
    similarity_search embed s query k
      = (enumerateFrom 0 (faissSearch s.vectors (embed query)
          (min k s.vectors.length))).map
          (fun ip => ⟨s.texts.getD ip.2.1 "", s.metadata.getD ip.2.1 default,
            scoreOf ip.2.2, ip.1 + 1⟩) ∧
    List.Pairwise (fun a b => a.2 < b.2 ∨ (a.2 = b.2 ∧ a.1 < b.1))
      (faissSearch s.vectors (embed query) (min k s.vectors.length)) ∧
    (∀ p ∈ faissSearch s.vectors (embed query) (min k s.vectors.length),
      p.1 < s.vectors.length ∧ p.2 = sqDist (embed query) (s.vectors.getD p.1 []) ∧
      0 < scoreOf p.2 ∧ scoreOf p.2 ≤ 1) ∧
    (∀ j : Nat, (similarity_search embed s query k).get? j
        = ((faissSearch s.vectors (embed query) (min k s.vectors.length)).get? j).map
          (fun p => ⟨s.texts.getD p.1 "", s.metadata.getD p.1 default,
            scoreOf p.2, j + 1⟩)) ∧
    (∀ d1 d2 : ℚ, 0 ≤ d1 → d1 < d2 → scoreOf d2 < scoreOf d1) := by
  have hmap : similarity_search embed s query k
      = (enumerateFrom 0 (faissSearch s.vectors (embed query)
          (min k s.vectors.length))).map
          (fun ip => ⟨s.texts.getD ip.2.1 "", s.metadata.getD ip.2.1 default,
            scoreOf ip.2.2, ip.1 + 1⟩) := by
    by_cases h0 : s.vectors.length = 0
    · have hv : s.vectors = [] := List.length_eq_zero.mp h0
      have hsel : faissSearch s.vectors (embed query) (min k 0) = [] := by
        rw [hv]; unfold faissSearch; simp
      simp only [similarity_search, h0, if_true, hsel]
      rfl
    · simp only [similarity_search, h0, if_false]
      apply filterMap_eq_map_of_mem
      intro ip hip
      have hmem := (mem_enumerateFrom hip).2.2
      have hlt := (faissSearch_mem _ _ _ _ hmem).1
      rw [if_pos (show ip.2.1 < s.texts.length by omega)]
  refine ⟨?_, ?_, hmap, faissSearch_pairwise _ _ _, ?_, ?_, ?_⟩
  · intro h0
    have hv : s.vectors = [] := List.length_eq_zero.mp h0
    simp only [similarity_search, h0, if_true]
  · rw [hmap, List.length_map, length_enumerateFrom, faissSearch_length]
    omega
  · intro p hp
    obtain ⟨h1, h2⟩ := faissSearch_mem _ _ _ _ hp
    have hd : 0 ≤ p.2 := by rw [h2]; exact sqDist_nonneg _ _
    exact ⟨h1, h2, scoreOf_pos hd, scoreOf_le_one hd⟩
  · intro j
    rw [hmap, List.get?_map, get?_enumerateFrom]
    cases hj : (faissSearch s.vectors (embed query)
        (min k s.vectors.length)).get? j with
    | none => rfl
    | some p => simp
  · intro d1 d2 h1 h2
    exact scoreOf_strictAnti h1 h2

/-- Witness for `similarity_search_spec`: a two-vector store and `k = 5`
(clamped to 2 results). -/
theorem similarity_search_spec_witness :
    (similarity_search (fun _ => [(0 : ℚ)])
      ⟨1, [[(1 : ℚ)], [(3 : ℚ)]], ["a", "b"], [⟨some "d", "n"⟩, ⟨some "d", "n"⟩]⟩
      "q" 5).length = min 5 2 :=
  (similarity_search_spec (fun _ => [(0 : ℚ)])
    ⟨1, [[(1 : ℚ)], [(3 : ℚ)]], ["a", "b"], [⟨some "d", "n"⟩, ⟨some "d", "n"⟩]⟩
    "q" 5 (by decide) (by decide)).2.1

/-! ## The Knowledge Graph Builder (`KnowledgeGraphBuilder`)

Python `dict` / `Counter` state is modelled as insertion-ordered association
lists; Python `set` values (document-id sets, per-document entity sets) as
insertion-ordered duplicate-free lists. -/

abbrev Entity := List Char

/-- Python `str.lower()` (ASCII case mapping, as performed by `Char.toLower`). -/
def pyLower (l : List Char) : List Char := l.map Char.toLower

/-- Python `str.capitalize()`: first character upper-cased, rest lower-cased
(ASCII case mapping). -/
def pyCapitalize : List Char → List Char
  | [] => []
  | c :: cs => Char.toUpper c :: cs.map Char.toLower

/-- Python `set.add` on the insertion-ordered list model. -/
def setAdd {α : Type _} [DecidableEq α] (s : List α) (a : α) : List α :=
  if a ∈ s then s else s ++ [a]

def assocLookup {α β : Type _} [DecidableEq α] : List (α × β) → α → Option β
  | [], _ => none
  | (k, v) :: m, key => if key = k then some v else assocLookup m key

def assocUpdate {α β : Type _} [DecidableEq α] (m : List (α × β)) (key : α)
    (f : β → β) : List (α × β) :=
  m.map (fun p => if p.1 = key then (p.1, f p.2) else p)

/-- Python dict assignment `d[k] = v`: update in place, or append a new key. -/
def assocSet {α β : Type _} [DecidableEq α] (m : List (α × β)) (key : α) (v : β) :
    List (α × β) :=
  match assocLookup m key with
  | some _ => m.map (fun p => if p.1 = key then (p.1, v) else p)
  | none => m ++ [(key, v)]

/-- `defaultdict(set)` update `d[k].add(x)`. -/
def assocSetAdd {α β : Type _} [DecidableEq α] [DecidableEq β]
    (m : List (α × List β)) (key : α) (x : β) : List (α × List β) :=
  match assocLookup m key with
  | some _ => assocUpdate m key (fun s => setAdd s x)
  | none => m ++ [(key, setAdd [] x)]

/-- `Counter` increment `c[k] += 1` (missing key counts as 0). -/
def counterAdd {α : Type _} [DecidableEq α] (m : List (α × Nat)) (key : α) :
    List (α × Nat) :=
  match assocLookup m key with
  | some _ => assocUpdate m key (· + 1)
  | none => m ++ [(key, 1)]

/-- `Counter` read `c[k]` (0 for a missing key). -/
def counterGet {α : Type _} [DecidableEq α] (m : List (α × Nat)) (key : α) : Nat :=
  (assocLookup m key).getD 0

/-- Python set intersection realised on duplicate-free lists. -/
def listInter {α : Type _} [DecidableEq α] (a b : List α) : List α :=
  a.filter (fun x => decide (x ∈ b))

/-! ### The entity-extraction policy (`_extract_entities`)

Regex `\b[A-Z][a-z]+(?:\s+[A-Z][a-z]+)*\b` (capitalized sequences) and
`\b[a-zA-Z]{4,}\b` on the lowered text (frequent terms), scanned
left-to-right and non-overlapping as `re.findall` does.  The fuel arguments
are bounded by the text length (every step consumes at least one character),
so no truncation occurs at the fuel values used. -/

/-- One capitalized word `[A-Z][a-z]+` at the head of the input (greedy). -/
def capWordAt : List Char → Option (List Char × List Char)
  | [] => none
  | c :: rest =>
    if isUpperAZ c then
      if (rest.takeWhile isLowerAZ).isEmpty then none
      else some (c :: rest.takeWhile isLowerAZ, rest.dropWhile isLowerAZ)
    else none

/-- Does a word boundary `\b` hold between a word character and this rest? -/
def boundaryOk : List Char → Bool
  | [] => true
  | c :: _ => !isWordCh c

/-- The `(?:\s+[A-Z][a-z]+)*` star, matched greedily; a final unit whose
trailing `\b` fails is dropped (the regex backtracks exactly that far, since
a shorter `[a-z]+` run inside the unit still ends before a word character,
and after dropping the unit the next character is whitespace). -/
def capUnits : Nat → List Char → List Char → List Char × List Char
  | 0, acc, rest => (acc, rest)
  | fuel + 1, acc, rest =>
    if (rest.takeWhile pySpace).isEmpty then (acc, rest)
    else
      match capWordAt (rest.dropWhile pySpace) with
      | none => (acc, rest)
      | some (w, rest2) =>
        if boundaryOk rest2 then
          capUnits fuel (acc ++ rest.takeWhile pySpace ++ w) rest2
        else (acc, rest)

/-- A full match of the capitalized-sequence pattern anchored at the head
(the leading `\b` is checked by the caller). -/
def capMatchAt (cs : List Char) : Option (List Char × List Char) :=
  match capWordAt cs with
  | none => none
  | some (w, rest) =>
    if boundaryOk rest then some (capUnits rest.length w rest) else none

/-- Left-to-right non-overlapping scan for the capitalized-sequence pattern;
the `Bool` records whether the previous character was a word character (so
that the leading `\b` can be checked). -/
def capScanAux : Nat → Bool → List Char → List (List Char)
  | 0, _, _ => []
  | _ + 1, _, [] => []
  | fuel + 1, prevWord, c :: rest =>
    if prevWord then capScanAux fuel (isWordCh c) rest
    else
      match capMatchAt (c :: rest) with
      | some (m, rest') => m :: capScanAux fuel true rest'
      | none => capScanAux fuel (isWordCh c) rest

/-- `re.findall(r'\b[A-Z][a-z]+(?:\s+[A-Z][a-z]+)*\b', text)`. -/
def capMatches (text : List Char) : List (List Char) :=
  capScanAux text.length false text

/-- `re.findall(r'\b[a-zA-Z]{4,}\b', text)`: maximal alphabetic runs of
length at least 4 whose neighbours are non-word characters. -/
def alphaRunsAux : Nat → Bool → List Char → List (List Char)
  | 0, _, _ => []
  | _ + 1, _, [] => []
  | fuel + 1, prevWord, c :: cs =>
    if isAlphaAZ c then
      if !prevWord && boundaryOk ((c :: cs).dropWhile isAlphaAZ)
          && decide (4 ≤ ((c :: cs).takeWhile isAlphaAZ).length) then
        (c :: cs).takeWhile isAlphaAZ
          :: alphaRunsAux fuel true ((c :: cs).dropWhile isAlphaAZ)
      else alphaRunsAux fuel true ((c :: cs).dropWhile isAlphaAZ)
    else alphaRunsAux fuel (isWordCh c) cs

def alphaRuns (l : List Char) : List (List Char) := alphaRunsAux l.length false l

def stopwords : List (List Char) :=
  ["the", "a", "an", "and", "or", "but", "in", "on", "at", "to", "for",
   "of", "with", "by", "from", "as", "is", "was", "are", "were", "been",
   "be", "have", "has", "had", "do", "does", "did", "will", "would",
   "could", "should", "may", "might", "can", "this", "that", "these",
   "those", "i", "you", "he", "she", "it", "we", "they", "them",
   "their"].map String.toList

/-- `KnowledgeGraphBuilder._extract_entities`: capitalized sequences (kept if
not a stopword and longer than 2 characters), then terms of length ≥ 4
occurring at least 3 times in the lowered text (not stopwords, added in
capitalized form); the result is the set of both, modelled in insertion
order. -/
def extract_entities (text : List Char) : List Entity :=
  let ents1 := (capMatches text).foldl
    (fun acc m =>
      if pyLower m ∉ stopwords ∧ 2 < m.length then setAdd acc m else acc) []
  let wordFreq := (alphaRuns (pyLower text)).foldl counterAdd []
  wordFreq.foldl
    (fun acc wf =>
      if 3 ≤ wf.2 ∧ wf.1 ∉ stopwords then setAdd acc (pyCapitalize wf.1)
      else acc) ents1

/-! ### Builder state and operations -/

structure DocRecord where
  text : List Char
  chunks : List String
  entities : List Entity
deriving DecidableEq, Repr

structure KG where
  documents : List (String × DocRecord)
  entities : List (Entity × List String)
  relationships : List (Entity × Entity × Nat)
  entityFrequencies : List (Entity × Nat)
deriving DecidableEq, Repr

def emptyKG : KG := ⟨[], [], [], []⟩

/-- The document set tracked for an entity (`self.entities[e]`). -/
def entDocs (em : List (Entity × List String)) (e : Entity) : List String :=
  (assocLookup em e).getD []

/-- `KnowledgeGraphBuilder._build_relationships`: for the ordered pairs
`i < j` of the document's entity list, append a triple weighted by the
current document-set intersection size whenever that intersection is
non-empty. -/
def buildRels (em : List (Entity × List String)) :
    List Entity → List (Entity × Entity × Nat)
  | [] => []
  | e1 :: rest =>
    rest.filterMap (fun e2 =>
      if (listInter (entDocs em e1) (entDocs em e2)).isEmpty then none
      else some (e1, e2, (listInter (entDocs em e1) (entDocs em e2)).length))
    ++ buildRels em rest

/-- The per-entity bookkeeping of `add_document`: document set, per-document
entity set, frequency counter. -/
def kgStep (docId : String) (g : KG) (e : Entity) : KG :=
  { g with
    entities := assocSetAdd g.entities e docId,
    documents := assocUpdate g.documents docId
      (fun r => { r with entities := setAdd r.entities e }),
    entityFrequencies := counterAdd g.entityFrequencies e }

/-- `KnowledgeGraphBuilder.add_document`. -/
def add_document (g : KG) (docId : String) (text : List Char)
    (chunks : List String) : KG :=
  let g1 := { g with documents := assocSet g.documents docId ⟨text, chunks, []⟩ }
  let g2 := (extract_entities text).foldl (kgStep docId) g1
  { g2 with relationships :=
      g2.relationships ++ buildRels g2.entities (extract_entities text) }

/-- A builder populated by a sequence of `add_document` calls. -/
def ofDocs (ds : List (String × List Char × List String)) : KG :=
  ds.foldl (fun g d => add_document g d.1 d.2.1 d.2.2) emptyKG

/-! ### The graph view (`build_graph`) -/

structure GNode where
  id : Nat
  label : Entity
  type : String
  size : ℚ
  color : String
  connections : Nat
  frequency : Nat
deriving DecidableEq, Repr

structure GEdge where
  source : Nat
  target : Nat
  weight : Nat
deriving DecidableEq, Repr

/-- A value of the returned view dictionary. -/
inductive GVal where
  | nodesV : List GNode → GVal
  | edgesV : List GEdge → GVal
  | natV : Nat → GVal
deriving DecidableEq, Repr

/-- Descending-count comparison (used by `most_common` and by the
related-entity sort; stable sorting keeps first-seen order on ties). -/
def bySndDesc {α : Type _} (a b : α × Nat) : Bool := decide (b.2 ≤ a.2)

/-- `Counter.most_common(30)` keys, most frequent first. -/
def topEntities (g : KG) : List Entity :=
  ((sortByLe bySndDesc g.entityFrequencies).take 30).map Prod.fst

def colors : List String :=
  ["#00d4ff", "#ff00ff", "#00ff88", "#ffaa00", "#ff0080", "#00ffff"]

/-- `entity[0].isupper()` (ASCII view; entities are never empty — Python
would raise on an empty string, which the `[]` case stands in for). -/
def headIsUpper : Entity → Bool
  | [] => false
  | c :: _ => isUpperAZ c

/-- `min(0.3 + freq * 0.1, 1.5)` (exact arithmetic stands in for float). -/
def nodeSize (freq : Nat) : ℚ := min ((3 : ℚ)/10 + freq * (1/10)) (3/2)

def mkNode (g : KG) (i : Nat) (e : Entity) : GNode :=
  { id := i,
    label := e,
    type := if headIsUpper e then "Proper Noun" else "Concept",
    size := nodeSize (counterGet g.entityFrequencies e),
    color := colors.getD (i % colors.length) "",
    connections := (g.relationships.filter
      (fun r => decide (r.1 = e ∨ r.2.1 = e))).length,
    frequency := counterGet g.entityFrequencies e }

/-- The `entity_to_index` mapping over the selection (duplicate-free, so the
first index is the only one). -/
def entityIndex (top : List Entity) (e : Entity) : Option Nat :=
  top.findIdx? (fun x => decide (x = e))

/-- `tuple(sorted([idx1, idx2]))`. -/
def edgeKeyOf (i1 i2 : Nat) : Nat × Nat := (min i1 i2, max i1 i2)

/-- The edge-construction loop of `build_graph`: iterate relationships in
order, keep a triple when both endpoints are selected, its unordered key is
unseen and its weight is at least 1. -/
def buildEdges (e2i : Entity → Option Nat) :
    List (Entity × Entity × Nat) → List (Nat × Nat) → List GEdge
  | [], _ => []
  | (e1, e2, w) :: rest, seen =>
    match e2i e1, e2i e2 with
    | some i1, some i2 =>
      if edgeKeyOf i1 i2 ∉ seen ∧ 1 ≤ w then
        ⟨i1, i2, w⟩ :: buildEdges e2i rest (edgeKeyOf i1 i2 :: seen)
      else buildEdges e2i rest seen
    | _, _ => buildEdges e2i rest seen

/-- `KnowledgeGraphBuilder.build_graph`: the returned dictionary, modelled as
a key/value list to keep the exact key shape observable. -/
def build_graph (g : KG) : List (String × GVal) :=
  let top := topEntities g
  if top.isEmpty then
    [("nodes", GVal.nodesV []), ("edges", GVal.edgesV [])]
  else
    [("nodes", GVal.nodesV ((enumerateFrom 0 top).map
        (fun ie => mkNode g ie.1 ie.2))),
     ("edges", GVal.edgesV (buildEdges (entityIndex top) g.relationships [])),
     ("total_entities", GVal.natV g.entities.length),
     ("total_documents", GVal.natV g.documents.length)]

def get_node_count (g : KG) : Nat := g.entities.length

structure EntityDetails where
  entity : Entity
  frequency : Nat
  documents : List String
  relatedEntities : List (Entity × Nat)
deriving DecidableEq, Repr

/-- The raw related-entity rows collected by `get_entity_details` (`elif`:
a self-loop row is reported once, from its first endpoint). -/
def relatedRows (g : KG) (e : Entity) : List (Entity × Nat) :=
  g.relationships.filterMap (fun r =>
    if r.1 = e then some (r.2.1, r.2.2)
    else if r.2.1 = e then some (r.1, r.2.2) else none)

/-- `KnowledgeGraphBuilder.get_entity_details`: `none` for an untracked
entity; otherwise frequency, owning document ids and the raw related rows
sorted by descending weight, truncated to 5. -/
def get_entity_details (g : KG) (e : Entity) : Option EntityDetails :=
  match assocLookup g.entities e with
  | none => none
  | some docIds =>
    some { entity := e,
           frequency := counterGet g.entityFrequencies e,
           documents := docIds,
           relatedEntities := (sortByLe bySndDesc (relatedRows g e)).take 5 }

example : extract_entities
      "Alice met Bob in Paris. Alice and Bob discussed Paris often.".toList
    = ["Alice".toList, "Bob".toList, "Paris".toList] := by decide
example : extract_entities "wolf wolf wolf".toList = ["Wolf".toList] := by decide
example : capMatches "Foo BarX baz".toList = ["Foo".toList] := by decide
example : capMatches "John Smith visited New York City".toList
    = ["John Smith".toList, "New York City".toList] := by decide

example :
    (ofDocs [("A", "Alice met Bob in Paris. Alice and Bob discussed Paris often.".toList, []),
             ("B", "Bob traveled to Paris again.".toList, [])]).relationships
      = [("Alice".toList, "Bob".toList, 1), ("Alice".toList, "Paris".toList, 1),
         ("Bob".toList, "Paris".toList, 1), ("Bob".toList, "Paris".toList, 2)] := by decide
example :
    topEntities (ofDocs
      [("A", "Alice met Bob in Paris. Alice and Bob discussed Paris often.".toList, []),
       ("B", "Bob traveled to Paris again.".toList, [])])
      = ["Bob".toList, "Paris".toList, "Alice".toList] := by decide

example :
    topEntities (ofDocs
      [("A", "Alice met Bob in Paris. Alice and Bob discussed Paris often.".toList, []),
       ("B", "Bob traveled to Paris again.".toList, [])])
      = ["Bob".toList, "Paris".toList, "Alice".toList] := by decide
example : build_graph emptyKG = [("nodes", GVal.nodesV []), ("edges", GVal.edgesV [])] := by decide

/-! ### Claim theorems for the Knowledge Graph Builder -/

theorem length_topEntities (g : KG) :
    (topEntities g).length = min 30 g.entityFrequencies.length := by
  unfold topEntities
  rw [List.length_map, List.length_take, length_sortByLe]

/-- Claim C6 (corrected form): for every builder state with at least one
tracked entity, `build_graph` returns a view with exactly the top-level keys
`nodes, edges, total_entities, total_documents`, where `total_entities` is
the number of distinct tracked entities and `total_documents` the number of
ingested documents; for the state with no entities the view has exactly the
keys `nodes, edges` (both empty).  (The claim's inclusion of the no-entity
state in the four-key shape is refuted by `build_graph_shape_cex`.) -/
theorem build_graph_shape (g : KG) :
    (g.entityFrequencies ≠ [] →
      (build_graph g).map Prod.fst
        = ["nodes", "edges", "total_entities", "total_documents"] ∧
      assocLookup (build_graph g) "total_entities"
        = some (GVal.natV g.entities.length) ∧
      assocLookup (build_graph g) "total_documents"
        = some (GVal.natV g.documents.length)) ∧
    (g.entityFrequencies = [] →
      (build_graph g).map Prod.fst = ["nodes", "edges"]) := by
  constructor
  · intro h
    have hne : ¬ (topEntities g).isEmpty = true := by
      rw [List.isEmpty_iff]
      intro h0
      have hlen := congrArg List.length h0
      rw [length_topEntities] at hlen
      simp only [List.length_nil] at hlen
      have : g.entityFrequencies.length = 0 := by omega
      exact h (List.length_eq_zero.mp this)
    unfold build_graph
    rw [if_neg hne]
    exact ⟨rfl, rfl, rfl⟩
  · intro h
    have hemp : (topEntities g).isEmpty = true := by
      rw [List.isEmpty_iff, ← List.length_eq_zero, length_topEntities, h]
      rfl
    unfold build_graph
    rw [if_pos hemp]
    rfl

/-- Claim C6, counterexample to the claim as stated: for the builder with no
entities, the returned view has only the keys `nodes, edges` — the
`total_entities` / `total_documents` keys of the claimed shape are absent. -/
theorem build_graph_shape_cex :
    (build_graph emptyKG).map Prod.fst = ["nodes", "edges"] ∧
    (build_graph emptyKG).map Prod.fst
      ≠ ["nodes", "edges", "total_entities", "total_documents"] := by
  refine ⟨by decide, by decide⟩

/-- Witness for `build_graph_shape` on a builder holding one entity. -/
theorem build_graph_shape_witness :
    (build_graph (ofDocs [("A", "wolf wolf wolf".toList, [])])).map Prod.fst
      = ["nodes", "edges", "total_entities", "total_documents"] :=
  ((build_graph_shape (ofDocs [("A", "wolf wolf wolf".toList, [])])).1
    (by decide)).1

/-! ### Counter lemmas -/

theorem assocLookup_assocUpdate {α β : Type _} [DecidableEq α] (m : List (α × β))
    (key : α) (f : β → β) (e : α) :
    assocLookup (assocUpdate m key f) e
      = if e = key then (assocLookup m key).map f else assocLookup m e := by
  induction m with
  | nil => by_cases h : e = key <;> simp [assocUpdate, assocLookup, h]
  | cons p m ih =>
    obtain ⟨k, v⟩ := p
    show assocLookup ((if k = key then (k, f v) else (k, v)) :: assocUpdate m key f) e = _
    by_cases hk : k = key
    · rw [if_pos hk]
      by_cases he : e = k
      · subst he; subst hk
        simp [assocLookup]
      · have hek : ¬ e = key := fun h => he (h.trans hk.symm)
        show (if e = k then some (f v) else assocLookup (assocUpdate m key f) e) = _
        rw [if_neg he, if_neg hek, ih, if_neg hek]
        show assocLookup m e = assocLookup ((k, v) :: m) e
        rw [show assocLookup ((k, v) :: m) e
            = if e = k then some v else assocLookup m e from rfl, if_neg he]
    · rw [if_neg hk]
      by_cases he : e = k
      · subst he
        have hek : ¬ e = key := fun hh => hk (hh.symm.trans rfl).symm
        simp [assocLookup, hek]
      · show (if e = k then some v else assocLookup (assocUpdate m key f) e) = _
        rw [if_neg he, ih]
        by_cases hek : e = key
        · rw [if_pos hek, if_pos hek]
          have : assocLookup ((k, v) :: m) key = assocLookup m key := by
            have hkk : ¬ key = k := fun h => hk h.symm
            show (if key = k then some v else assocLookup m key) = _
            rw [if_neg hkk]
          rw [this]
        · rw [if_neg hek, if_neg hek]
          show assocLookup m e = assocLookup ((k, v) :: m) e
          rw [show assocLookup ((k, v) :: m) e
              = if e = k then some v else assocLookup m e from rfl, if_neg he]

theorem assocLookup_append {α β : Type _} [DecidableEq α] (m m' : List (α × β))
    (e : α) :
    assocLookup (m ++ m') e
      = match assocLookup m e with
        | some v => some v
        | none => assocLookup m' e := by
  induction m with
  | nil => rfl
  | cons p m ih =>
    obtain ⟨k, v⟩ := p
    by_cases he : e = k <;> simp [assocLookup, he, ih]

theorem counterGet_counterAdd {α : Type _} [DecidableEq α] (m : List (α × Nat))
    (key e : α) :
    counterGet (counterAdd m key) e
      = counterGet m e + (if e = key then 1 else 0) := by
  unfold counterAdd counterGet
  cases hl : assocLookup m key with
  | some v =>
    rw [assocLookup_assocUpdate]
    by_cases he : e = key
    · subst he
      rw [if_pos rfl, if_pos rfl, hl]
      rfl
    · rw [if_neg he, if_neg he]
      omega
  | none =>
    rw [assocLookup_append]
    by_cases he : e = key
    · subst he
      rw [hl]
      simp [assocLookup]
    · cases hme : assocLookup m e <;> simp [assocLookup, he, hme]

theorem counterGet_foldl {α : Type _} [DecidableEq α] (e : α) :
    ∀ (l : List α) (m : List (α × Nat)),
      counterGet (l.foldl counterAdd m) e
        = counterGet m e + l.countP (fun x => decide (x = e)) := by
  intro l
  induction l with
  | nil => intro m; simp
  | cons a l ih =>
    intro m
    rw [List.foldl_cons, ih, counterGet_counterAdd, List.countP_cons]
    by_cases he : a = e
    · subst he; simp; omega
    · have : ¬ e = a := fun h => he h.symm
      simp [he, this]

theorem countP_eq_ite_of_nodup {α : Type _} [DecidableEq α] (l : List α)
    (hl : l.Nodup) (e : α) :
    l.countP (fun x => decide (x = e)) = if e ∈ l then 1 else 0 := by
  induction l with
  | nil => simp
  | cons a l ih =>
    rw [List.countP_cons, List.nodup_cons] at *
    by_cases he : a = e
    · subst he
      have hnm : ¬ (a ∈ l) := hl.1
      simp [ih hl.2, hnm]
    · have hne : ¬ e = a := fun h => he h.symm
      simp [ih hl.2, he, hne, List.mem_cons]

/-! ### Duplicate-freedom of the extracted entity set -/

theorem setAdd_nodup {α : Type _} [DecidableEq α] (s : List α) (a : α)
    (h : s.Nodup) : (setAdd s a).Nodup := by
  unfold setAdd
  by_cases hm : a ∈ s
  · rw [if_pos hm]; exact h
  · rw [if_neg hm]
    simp [List.nodup_append, h, hm]

theorem foldl_setAdd_nodup {α β : Type _} [DecidableEq α] (h : β → α)
    (P : β → Prop) [DecidablePred P] :
    ∀ (l : List β) (acc : List α), acc.Nodup →
      (l.foldl (fun a m => if P m then setAdd a (h m) else a) acc).Nodup := by
  intro l
  induction l with
  | nil => intro acc hacc; exact hacc
  | cons b l ih =>
    intro acc hacc
    rw [List.foldl_cons]
    by_cases hP : P b
    · rw [if_pos hP]; exact ih _ (setAdd_nodup acc (h b) hacc)
    · rw [if_neg hP]; exact ih _ hacc

theorem mem_foldl_setAdd {α β : Type _} [DecidableEq α] (h : β → α)
    (P : β → Prop) [DecidablePred P] :
    ∀ (l : List β) (acc : List α) (x : α),
      x ∈ l.foldl (fun a m => if P m then setAdd a (h m) else a) acc →
      x ∈ acc ∨ ∃ m ∈ l, x = h m := by
  intro l
  induction l with
  | nil => intro acc x hx; exact Or.inl hx
  | cons b l ih =>
    intro acc x hx
    rw [List.foldl_cons] at hx
    by_cases hP : P b
    · rw [if_pos hP] at hx
      rcases ih _ x hx with hx' | ⟨m, hm, rfl⟩
      · unfold setAdd at hx'
        by_cases hmem : h b ∈ acc
        · rw [if_pos hmem] at hx'
          exact Or.inl hx'
        · rw [if_neg hmem, List.mem_append] at hx'
          rcases hx' with hx' | hx'
          · exact Or.inl hx'
          · exact Or.inr ⟨b, by simp, by simpa using hx'⟩
      · exact Or.inr ⟨m, by simp [hm], rfl⟩
    · rw [if_neg hP] at hx
      rcases ih _ x hx with hx' | ⟨m, hm, rfl⟩
      · exact Or.inl hx'
      · exact Or.inr ⟨m, by simp [hm], rfl⟩

theorem extract_entities_nodup (text : List Char) :
    (extract_entities text).Nodup := by
  unfold extract_entities
  apply foldl_setAdd_nodup (fun wf : Entity × Nat => pyCapitalize wf.1)
    (fun wf => 3 ≤ wf.2 ∧ wf.1 ∉ stopwords)
  apply foldl_setAdd_nodup (fun m : List Char => m)
    (fun m => pyLower m ∉ stopwords ∧ 2 < m.length)
  exact List.nodup_nil

theorem entityFrequencies_foldl_kgStep (docId : String) :
    ∀ (ents : List Entity) (g : KG),
      (ents.foldl (kgStep docId) g).entityFrequencies
        = ents.foldl counterAdd g.entityFrequencies := by
  intro ents
  induction ents with
  | nil => intro g; rfl
  | cons e ents ih =>
    intro g
    rw [List.foldl_cons, List.foldl_cons, ih]
    rfl

/-- Per-call effect of `add_document` on one entity's frequency counter:
`+1` exactly when the extracted entity set contains it. -/
theorem add_document_freq (g : KG) (docId : String) (text : List Char)
    (chunks : List String) (e : Entity) :
    counterGet (add_document g docId text chunks).entityFrequencies e
      = counterGet g.entityFrequencies e
        + (if e ∈ extract_entities text then 1 else 0) := by
  show counterGet ((extract_entities text).foldl (kgStep docId)
      { g with documents := assocSet g.documents docId ⟨text, chunks, []⟩
      }).entityFrequencies e = _
  rw [entityFrequencies_foldl_kgStep]
  show counterGet ((extract_entities text).foldl counterAdd g.entityFrequencies) e = _
  rw [counterGet_foldl]
  congr 1
  have hnd := extract_entities_nodup text
  rw [countP_eq_ite_of_nodup _ hnd]
  by_cases hm : e ∈ extract_entities text
  · rw [if_pos hm, if_pos hm]
  · rw [if_neg hm, if_neg hm]

theorem ofDocs_freq_aux (e : Entity) :
    ∀ (ds : List (String × List Char × List String)) (g : KG),
      counterGet ((ds.foldl (fun g d => add_document g d.1 d.2.1 d.2.2) g)).entityFrequencies e
        = counterGet g.entityFrequencies e
          + ds.countP (fun d => decide (e ∈ extract_entities d.2.1)) := by
  intro ds
  induction ds with
  | nil => intro g; simp
  | cons d ds ih =>
    intro g
    rw [List.foldl_cons, ih, add_document_freq, List.countP_cons]
    by_cases hm : e ∈ extract_entities d.2.1 <;> simp [hm] <;> omega

/-- Claim C8: each `add_document` call increments the frequency counter of
each entity in the document's extracted entity set by exactly 1 (independent
of in-text repetition, since the extracted set is duplicate-free), and after
ingesting documents with pairwise distinct ids, `entity_frequency[e]` equals
the number of those documents whose extracted entity set contains `e`. -/
theorem entity_frequency_counts (g : KG) (docId : String) (text : List Char)
    (chunks : List String) (e : Entity)
    (ds : List (String × List Char × List String))
    (hids : (ds.map Prod.fst).Nodup) :
    counterGet (add_document g docId text chunks).entityFrequencies e
      = counterGet g.entityFrequencies e
        + (if e ∈ extract_entities text then 1 else 0) ∧
    counterGet (ofDocs ds).entityFrequencies e
      = ds.countP (fun d => decide (e ∈ extract_entities d.2.1)) := by
  refine ⟨add_document_freq g docId text chunks e, ?_⟩
  have h := ofDocs_freq_aux e ds emptyKG
  show counterGet (ds.foldl (fun g d => add_document g d.1 d.2.1 d.2.2)
      emptyKG).entityFrequencies e = _
  rw [h]
  simp [counterGet, assocLookup]

/-- Witness for `entity_frequency_counts`: one document containing the
frequent term `wolf` gives `entity_frequency[Wolf] = 1`. -/
theorem entity_frequency_counts_witness :
    counterGet (ofDocs [("A", "wolf wolf wolf".toList, [])]).entityFrequencies
      "Wolf".toList = 1 :=
  ((entity_frequency_counts emptyKG "A" [] [] "Wolf".toList
      [("A", "wolf wolf wolf".toList, [])] (by decide)).2).trans (by decide)

theorem bySndDesc_trans {α : Type _} (a b c : α × Nat) :
    bySndDesc a b = true → bySndDesc b c = true → bySndDesc a c = true := by
  simp only [bySndDesc, decide_eq_true_eq]
  omega

theorem bySndDesc_total {α : Type _} (a b : α × Nat) :
    bySndDesc a b = true ∨ bySndDesc b a = true := by
  simp only [bySndDesc, decide_eq_true_eq]
  omega

/-- Claim C9: `get_entity_details` returns the explicit not-found signal
(`none`) for an untracked entity, without raising; for a tracked entity it
returns its frequency, its owning document ids, and at most 5 related rows
sorted by non-increasing relationship weight, drawn from the raw relationship
rows without merging duplicates (the returned rows are a sub-permutation of
the raw rows). -/
theorem get_entity_details_spec (g : KG) (e : Entity) :
    (assocLookup g.entities e = none → get_entity_details g e = none) ∧
    (∀ docIds, assocLookup g.entities e = some docIds →
      ∃ d, get_entity_details g e = some d ∧
        d.entity = e ∧
        d.frequency = counterGet g.entityFrequencies e ∧
        d.documents = docIds ∧
        d.relatedEntities.length ≤ 5 ∧
        d.relatedEntities.Pairwise (fun a b => b.2 ≤ a.2) ∧
        d.relatedEntities.Subperm (relatedRows g e)) := by
  constructor
  · intro h
    unfold get_entity_details
    rw [h]
  · intro docIds h
    refine ⟨_, by unfold get_entity_details; rw [h], rfl, rfl, rfl, ?_, ?_, ?_⟩
    · show ((sortByLe bySndDesc (relatedRows g e)).take 5).length ≤ 5
      simpa using List.length_take_le 5 _
    · have hp := pairwise_sortByLe bySndDesc bySndDesc_trans bySndDesc_total
        (relatedRows g e)
      have hp5 := List.Pairwise.sublist (List.take_sublist 5 _) hp
      refine hp5.imp ?_
      intro a b hab
      simpa [bySndDesc] using hab
    · exact ((List.take_sublist 5 _).subperm).trans
        (sortByLe_perm bySndDesc (relatedRows g e)).subperm

/-- Witness for `get_entity_details_spec`: an untracked entity yields the
not-found signal. -/
theorem get_entity_details_spec_witness :
    get_entity_details emptyKG "X".toList = none :=
  (get_entity_details_spec emptyKG "X".toList).1 rfl

/-! ### Relationship construction lemmas -/

theorem mem_setAdd_self {α : Type _} [DecidableEq α] (s : List α) (a : α) :
    a ∈ setAdd s a := by
  unfold setAdd
  by_cases h : a ∈ s <;> simp [h]

theorem entDocs_assocSetAdd (em : List (Entity × List String)) (key : Entity)
    (x : String) (e : Entity) :
    entDocs (assocSetAdd em key x) e
      = if e = key then setAdd (entDocs em key) x else entDocs em e := by
  unfold assocSetAdd entDocs
  cases hl : assocLookup em key with
  | some s =>
    rw [assocLookup_assocUpdate]
    by_cases he : e = key
    · rw [if_pos he, if_pos he, hl]
      rfl
    · rw [if_neg he, if_neg he]
  | none =>
    rw [assocLookup_append]
    by_cases he : e = key
    · subst he
      rw [hl, if_pos rfl]
      simp [assocLookup, hl]
    · rw [if_neg he]
      cases hme : assocLookup em e <;> simp [assocLookup, he, hme]

theorem entities_foldl_kgStep (docId : String) :
    ∀ (ents : List Entity) (g : KG),
      (ents.foldl (kgStep docId) g).entities
        = ents.foldl (fun em e => assocSetAdd em e docId) g.entities := by
  intro ents
  induction ents with
  | nil => intro g; rfl
  | cons e ents ih =>
    intro g
    rw [List.foldl_cons, List.foldl_cons, ih]
    rfl

theorem mem_entDocs_foldl (docId : String) :
    ∀ (ents : List Entity) (em : List (Entity × List String)) (e : Entity),
      e ∈ ents ∨ docId ∈ entDocs em e →
      docId ∈ entDocs (ents.foldl (fun em e => assocSetAdd em e docId) em) e := by
  intro ents
  induction ents with
  | nil =>
    intro em e he
    rcases he with h | h
    · cases h
    · exact h
  | cons a ents ih =>
    intro em e he
    rw [List.foldl_cons]
    apply ih
    by_cases hea : e = a
    · right
      rw [entDocs_assocSetAdd, if_pos hea]
      exact mem_setAdd_self _ _
    · rcases he with he | he
      · rcases List.mem_cons.mp he with rfl | he'
        · exact absurd rfl hea
        · left; exact he'
      · right
        rw [entDocs_assocSetAdd, if_neg hea]
        exact he

theorem buildRels_mem_fact (em : List (Entity × List String)) :
    ∀ (ents : List Entity) (r : Entity × Entity × Nat), r ∈ buildRels em ents →
      r.1 ∈ ents ∧ r.2.1 ∈ ents ∧
      r.2.2 = (listInter (entDocs em r.1) (entDocs em r.2.1)).length ∧
      ¬ (listInter (entDocs em r.1) (entDocs em r.2.1)).isEmpty = true := by
  intro ents
  induction ents with
  | nil => intro r hr; cases hr
  | cons e1 ents ih =>
    intro r hr
    rw [buildRels, List.mem_append] at hr
    rcases hr with hr | hr
    · obtain ⟨e2, he2, hsome⟩ := List.mem_filterMap.mp hr
      by_cases hemp : (listInter (entDocs em e1) (entDocs em e2)).isEmpty = true
      · rw [if_pos hemp] at hsome; cases hsome
      · rw [if_neg hemp] at hsome
        injection hsome with hsome
        subst hsome
        exact ⟨by simp, by simp [he2], rfl, hemp⟩
    · obtain ⟨h1, h2, h3, h4⟩ := ih r hr
      exact ⟨by simp [h1], by simp [h2], h3, h4⟩

theorem buildRels_pair_count (em : List (Entity × List String)) :
    ∀ (ents : List Entity), ents.Nodup →
      (∀ x ∈ ents, ∀ y ∈ ents,
        ¬ (listInter (entDocs em x) (entDocs em y)).isEmpty = true) →
      ∀ e1 e2 : Entity, e1 ∈ ents → e2 ∈ ents → e1 ≠ e2 →
        (buildRels em ents).countP
          (fun r => decide ((r.1 = e1 ∧ r.2.1 = e2) ∨ (r.1 = e2 ∧ r.2.1 = e1)))
          = 1 := by
  intro ents
  induction ents with
  | nil => intro _ _ e1 e2 h; cases h
  | cons a rest ih =>
    intro hnd hinter e1 e2 he1 he2 hne
    rw [List.nodup_cons] at hnd
    rw [buildRels, List.countP_append]
    have hhead : rest.filterMap (fun e2' =>
        if (listInter (entDocs em a) (entDocs em e2')).isEmpty = true then none
        else some (a, e2', (listInter (entDocs em a) (entDocs em e2')).length))
        = rest.map (fun e2' =>
            (a, e2', (listInter (entDocs em a) (entDocs em e2')).length)) := by
      apply filterMap_eq_map_of_mem
      intro x hx
      rw [if_neg (hinter a (by simp) x (by simp [hx]))]
    rw [hhead, List.countP_map]
    have htail0 : e1 = a ∨ e2 = a →
        (buildRels em rest).countP
          (fun r => decide ((r.1 = e1 ∧ r.2.1 = e2) ∨ (r.1 = e2 ∧ r.2.1 = e1)))
          = 0 := by
      intro hcase
      apply List.countP_eq_zero.mpr
      intro r hr
      obtain ⟨hm1, hm2, _, _⟩ := buildRels_mem_fact em rest r hr
      simp only [decide_eq_true_eq]
      rintro (⟨hr1, hr2⟩ | ⟨hr1, hr2⟩)
      · rcases hcase with rfl | rfl
        · exact hnd.1 (hr1 ▸ hm1)
        · exact hnd.1 (hr2 ▸ hm2)
      · rcases hcase with rfl | rfl
        · exact hnd.1 (hr2 ▸ hm2)
        · exact hnd.1 (hr1 ▸ hm1)
    rcases List.mem_cons.mp he1 with rfl | he1'
    · have he2' : e2 ∈ rest := by
        rcases List.mem_cons.mp he2 with h | h
        · exact absurd h.symm hne
        · exact h
      have hhc : rest.countP ((fun r => decide ((r.1 = e1 ∧ r.2.1 = e2) ∨
          (r.1 = e2 ∧ r.2.1 = e1))) ∘ (fun e2' =>
            (e1, e2', (listInter (entDocs em e1) (entDocs em e2')).length)))
          = rest.countP (fun x => decide (x = e2)) := by
        apply List.countP_congr
        intro x _
        show (decide ((e1 = e1 ∧ x = e2) ∨ (e1 = e2 ∧ x = e1))) = true
          ↔ decide (x = e2) = true
        simp only [decide_eq_true_eq]
        constructor
        · rintro (⟨_, h⟩ | ⟨h, _⟩)
          · exact h
          · exact absurd h hne
        · intro h
          exact Or.inl ⟨trivial, h⟩
      rw [hhc, countP_eq_ite_of_nodup rest hnd.2, if_pos he2',
        htail0 (Or.inl rfl)]
    · rcases List.mem_cons.mp he2 with rfl | he2'
      · have hhc : rest.countP ((fun r => decide ((r.1 = e1 ∧ r.2.1 = e2) ∨
            (r.1 = e2 ∧ r.2.1 = e1))) ∘ (fun e2' =>
              (e2, e2', (listInter (entDocs em e2) (entDocs em e2')).length)))
            = rest.countP (fun x => decide (x = e1)) := by
          apply List.countP_congr
          intro x _
          show (decide ((e2 = e1 ∧ x = e2) ∨ (e2 = e2 ∧ x = e1))) = true
            ↔ decide (x = e1) = true
          simp only [decide_eq_true_eq]
          constructor
          · rintro (⟨h, _⟩ | ⟨_, h⟩)
            · exact absurd h.symm hne
            · exact h
          · intro h
            exact Or.inr ⟨trivial, h⟩
        rw [hhc, countP_eq_ite_of_nodup rest hnd.2, if_pos he1',
          htail0 (Or.inr rfl)]
      · have hhc : rest.countP ((fun r => decide ((r.1 = e1 ∧ r.2.1 = e2) ∨
            (r.1 = e2 ∧ r.2.1 = e1))) ∘ (fun e2' =>
              (a, e2', (listInter (entDocs em a) (entDocs em e2')).length)))
            = 0 := by
          apply List.countP_eq_zero.mpr
          intro x _
          show ¬ (decide ((a = e1 ∧ x = e2) ∨ (a = e2 ∧ x = e1))) = true
          simp only [decide_eq_true_eq]
          rintro (⟨h, _⟩ | ⟨h, _⟩)
          · exact hnd.1 (h ▸ he1')
          · exact hnd.1 (h ▸ he2')
        rw [hhc, ih hnd.2
          (fun x hx y hy => hinter x (by simp [hx]) y (by simp [hy]))
          e1 e2 he1' he2' hne]

/-! ### Edge deduplication lemmas (`build_graph` edge loop) -/

/-- The relationships whose endpoints are both selected, as index triples
(in relationship order). -/
def mappedRels (e2i : Entity → Option Nat) (rels : List (Entity × Entity × Nat)) :
    List (Nat × Nat × Nat) :=
  rels.filterMap (fun r =>
    match e2i r.1, e2i r.2.1 with
    | some i1, some i2 => some (i1, i2, r.2.2)
    | _, _ => none)

/-- The unordered key of an index triple. -/
def relKey (t : Nat × Nat × Nat) : Nat × Nat := edgeKeyOf t.1 t.2.1

theorem buildEdges_cons_none1 (e2i : Entity → Option Nat) (e1 e2 : Entity)
    (w : Nat) (rest : List (Entity × Entity × Nat)) (seen : List (Nat × Nat))
    (h : e2i e1 = none) :
    buildEdges e2i ((e1, e2, w) :: rest) seen = buildEdges e2i rest seen := by
  simp [buildEdges, h]

theorem buildEdges_cons_none2 (e2i : Entity → Option Nat) (e1 e2 : Entity)
    (w i1 : Nat) (rest : List (Entity × Entity × Nat)) (seen : List (Nat × Nat))
    (h1 : e2i e1 = some i1) (h2 : e2i e2 = none) :
    buildEdges e2i ((e1, e2, w) :: rest) seen = buildEdges e2i rest seen := by
  simp [buildEdges, h1, h2]

theorem buildEdges_cons_new (e2i : Entity → Option Nat) (e1 e2 : Entity)
    (w i1 i2 : Nat) (rest : List (Entity × Entity × Nat)) (seen : List (Nat × Nat))
    (h1 : e2i e1 = some i1) (h2 : e2i e2 = some i2)
    (hc : edgeKeyOf i1 i2 ∉ seen ∧ 1 ≤ w) :
    buildEdges e2i ((e1, e2, w) :: rest) seen
      = ⟨i1, i2, w⟩ :: buildEdges e2i rest (edgeKeyOf i1 i2 :: seen) := by
  simp only [buildEdges, h1, h2]
  rw [if_pos hc]

theorem buildEdges_cons_old (e2i : Entity → Option Nat) (e1 e2 : Entity)
    (w i1 i2 : Nat) (rest : List (Entity × Entity × Nat)) (seen : List (Nat × Nat))
    (h1 : e2i e1 = some i1) (h2 : e2i e2 = some i2)
    (hc : ¬ (edgeKeyOf i1 i2 ∉ seen ∧ 1 ≤ w)) :
    buildEdges e2i ((e1, e2, w) :: rest) seen = buildEdges e2i rest seen := by
  simp only [buildEdges, h1, h2]
  rw [if_neg hc]

theorem mappedRels_cons_some (e2i : Entity → Option Nat) (e1 e2 : Entity)
    (w i1 i2 : Nat) (rest : List (Entity × Entity × Nat))
    (h1 : e2i e1 = some i1) (h2 : e2i e2 = some i2) :
    mappedRels e2i ((e1, e2, w) :: rest) = (i1, i2, w) :: mappedRels e2i rest := by
  unfold mappedRels
  rw [List.filterMap_cons]
  simp only [h1, h2]

theorem mappedRels_cons_none1 (e2i : Entity → Option Nat) (e1 e2 : Entity)
    (w : Nat) (rest : List (Entity × Entity × Nat)) (h : e2i e1 = none) :
    mappedRels e2i ((e1, e2, w) :: rest) = mappedRels e2i rest := by
  unfold mappedRels
  rw [List.filterMap_cons]
  simp only [h]

theorem mappedRels_cons_none2 (e2i : Entity → Option Nat) (e1 e2 : Entity)
    (w i1 : Nat) (rest : List (Entity × Entity × Nat))
    (h1 : e2i e1 = some i1) (h2 : e2i e2 = none) :
    mappedRels e2i ((e1, e2, w) :: rest) = mappedRels e2i rest := by
  unfold mappedRels
  rw [List.filterMap_cons]
  simp only [h1, h2]

/-- Correctness of the edge loop: the emitted edges have pairwise distinct
unordered keys, none of them carries a key from `seen`, each emitted edge is
the **first** selected relationship (of weight ≥ 1) with its key, and every
selected relationship of weight ≥ 1 whose key is not in `seen` is represented
by some edge. -/
theorem buildEdges_spec (e2i : Entity → Option Nat) :
    ∀ (rels : List (Entity × Entity × Nat)) (seen : List (Nat × Nat)),
      ((buildEdges e2i rels seen).Pairwise
        (fun a b => edgeKeyOf a.source a.target ≠ edgeKeyOf b.source b.target)) ∧
      (∀ ed ∈ buildEdges e2i rels seen,
        edgeKeyOf ed.source ed.target ∉ seen ∧
        (mappedRels e2i rels).find?
            (fun t => decide (relKey t = edgeKeyOf ed.source ed.target ∧ 1 ≤ t.2.2))
          = some (ed.source, ed.target, ed.weight)) ∧
      (∀ t ∈ mappedRels e2i rels, 1 ≤ t.2.2 → relKey t ∉ seen →
        ∃ ed ∈ buildEdges e2i rels seen,
          edgeKeyOf ed.source ed.target = relKey t) := by
  intro rels
  induction rels with
  | nil =>
    intro seen
    refine ⟨List.Pairwise.nil, ?_, ?_⟩
    · intro ed hed; cases hed
    · intro t ht; cases ht
  | cons r rest ih =>
    intro seen
    obtain ⟨e1, e2, w⟩ := r
    cases h1 : e2i e1 with
    | none =>
      rw [buildEdges_cons_none1 e2i e1 e2 w rest seen h1,
        mappedRels_cons_none1 e2i e1 e2 w rest h1]
      exact ih seen
    | some i1 =>
      cases h2 : e2i e2 with
      | none =>
        rw [buildEdges_cons_none2 e2i e1 e2 w i1 rest seen h1 h2,
          mappedRels_cons_none2 e2i e1 e2 w i1 rest h1 h2]
        exact ih seen
      | some i2 =>
        rw [mappedRels_cons_some e2i e1 e2 w i1 i2 rest h1 h2]
        by_cases hc : edgeKeyOf i1 i2 ∉ seen ∧ 1 ≤ w
        · rw [buildEdges_cons_new e2i e1 e2 w i1 i2 rest seen h1 h2 hc]
          obtain ⟨ihp, ihmem, ihcov⟩ := ih (edgeKeyOf i1 i2 :: seen)
          refine ⟨?_, ?_, ?_⟩
          · refine List.Pairwise.cons ?_ ihp
            intro ed hed
            have hkey := (ihmem ed hed).1
            intro hkeq
            exact hkey (by rw [← hkeq]; exact List.mem_cons_self _ _)
          · intro ed hed
            rcases List.mem_cons.mp hed with rfl | hed'
            · refine ⟨hc.1, ?_⟩
              rw [List.find?_cons_of_pos]
              simp only [relKey, decide_eq_true_eq]
              exact ⟨trivial, hc.2⟩
            · obtain ⟨hkey, hfind⟩ := ihmem ed hed'
              have hkeyne : relKey (i1, i2, w) ≠ edgeKeyOf ed.source ed.target := by
                intro hkeq
                exact hkey (by rw [← hkeq]; exact List.mem_cons_self _ _)
              refine ⟨fun hin => hkey (List.mem_cons_of_mem _ hin), ?_⟩
              rw [List.find?_cons_of_neg, hfind]
              simp only [decide_eq_true_eq]
              intro hand
              exact hkeyne hand.1
          · intro t ht hw hkns
            rcases List.mem_cons.mp ht with rfl | ht'
            · exact ⟨⟨i1, i2, w⟩, List.mem_cons_self _ _, rfl⟩
            · by_cases hkk : relKey t = edgeKeyOf i1 i2
              · exact ⟨⟨i1, i2, w⟩, List.mem_cons_self _ _, hkk.symm⟩
              · obtain ⟨ed, hed, hkeq⟩ := ihcov t ht' hw (by
                  intro hmem
                  rcases List.mem_cons.mp hmem with h | h
                  · exact hkk h
                  · exact hkns h)
                exact ⟨ed, List.mem_cons_of_mem _ hed, hkeq⟩
        · rw [buildEdges_cons_old e2i e1 e2 w i1 i2 rest seen h1 h2 hc]
          obtain ⟨ihp, ihmem, ihcov⟩ := ih seen
          have hcase : edgeKeyOf i1 i2 ∈ seen ∨ ¬ 1 ≤ w := by
            by_cases hin : edgeKeyOf i1 i2 ∈ seen
            · exact Or.inl hin
            · right; intro hw; exact hc ⟨hin, hw⟩
          refine ⟨ihp, ?_, ?_⟩
          · intro ed hed
            obtain ⟨hkey, hfind⟩ := ihmem ed hed
            refine ⟨hkey, ?_⟩
            rw [List.find?_cons_of_neg, hfind]
            simp only [relKey, decide_eq_true_eq]
            rintro ⟨hkeq, hw⟩
            rcases hcase with hin | hnw
            · exact hkey (hkeq ▸ hin)
            · exact hnw hw
          · intro t ht hw hkns
            rcases List.mem_cons.mp ht with rfl | ht'
            · rcases hcase with hin | hnw
              · exact absurd hin (by simpa [relKey] using hkns)
              · exact absurd hw hnw
            · exact ihcov t ht' hw hkns

theorem relationships_foldl_kgStep (docId : String) :
    ∀ (ents : List Entity) (g : KG),
      (ents.foldl (kgStep docId) g).relationships = g.relationships := by
  intro ents
  induction ents with
  | nil => intro g; rfl
  | cons e ents ih =>
    intro g
    rw [List.foldl_cons, ih]
    rfl

/-- Claim C7: after the per-entity updates of `add_document`, exactly one new
relationship triple is appended per unordered pair of distinct extracted
entities (appended to the existing list — repeated co-occurrence appends
rather than merges), each carrying the current intersection size of the two
document sets as weight, which is at least 1 because both sets now contain
the current document; and `build_graph` keeps only the first-encountered
edge per unordered pair in relationship order. -/
theorem relationships_per_pair (g : KG) (docId : String) (text : List Char)
    (chunks : List String) (g0 : KG) :
    ((add_document g docId text chunks).relationships
      = g.relationships
        ++ buildRels (add_document g docId text chunks).entities
            (extract_entities text)) ∧
    (∀ r ∈ buildRels (add_document g docId text chunks).entities
        (extract_entities text),
      r.2.2 = (listInter
          (entDocs (add_document g docId text chunks).entities r.1)
          (entDocs (add_document g docId text chunks).entities r.2.1)).length ∧
      docId ∈ entDocs (add_document g docId text chunks).entities r.1 ∧
      docId ∈ entDocs (add_document g docId text chunks).entities r.2.1 ∧
      1 ≤ r.2.2) ∧
    (∀ e1 e2 : Entity, e1 ∈ extract_entities text → e2 ∈ extract_entities text →
      e1 ≠ e2 →
      (buildRels (add_document g docId text chunks).entities
          (extract_entities text)).countP
        (fun r => decide ((r.1 = e1 ∧ r.2.1 = e2) ∨ (r.1 = e2 ∧ r.2.1 = e1)))
        = 1) ∧
    ((buildEdges (entityIndex (topEntities g0)) g0.relationships []).Pairwise
        (fun a b => edgeKeyOf a.source a.target ≠ edgeKeyOf b.source b.target) ∧
      (∀ ed ∈ buildEdges (entityIndex (topEntities g0)) g0.relationships [],
        (mappedRels (entityIndex (topEntities g0)) g0.relationships).find?
            (fun t => decide (relKey t = edgeKeyOf ed.source ed.target ∧ 1 ≤ t.2.2))
          = some (ed.source, ed.target, ed.weight)) ∧
      (∀ t ∈ mappedRels (entityIndex (topEntities g0)) g0.relationships,
        1 ≤ t.2.2 →
        ∃ ed ∈ buildEdges (entityIndex (topEntities g0)) g0.relationships [],
          edgeKeyOf ed.source ed.target = relKey t)) := by
  have hE : (add_document g docId text chunks).entities
      = (extract_entities text).foldl (fun em e => assocSetAdd em e docId)
          g.entities := by
    show ((extract_entities text).foldl (kgStep docId)
        { g with documents := assocSet g.documents docId ⟨text, chunks, []⟩
        }).entities = _
    rw [entities_foldl_kgStep]
  have hdoc : ∀ e ∈ extract_entities text,
      docId ∈ entDocs (add_document g docId text chunks).entities e := by
    intro e he
    rw [hE]
    exact mem_entDocs_foldl docId (extract_entities text) g.entities e (Or.inl he)
  have hinter : ∀ x ∈ extract_entities text, ∀ y ∈ extract_entities text,
      ¬ (listInter (entDocs (add_document g docId text chunks).entities x)
          (entDocs (add_document g docId text chunks).entities y)).isEmpty
        = true := by
    intro x hx y hy hemp
    rw [List.isEmpty_iff] at hemp
    have hdx := hdoc x hx
    have hdy := hdoc y hy
    have hmem : docId ∈ listInter
        (entDocs (add_document g docId text chunks).entities x)
        (entDocs (add_document g docId text chunks).entities y) := by
      unfold listInter
      rw [List.mem_filter]
      exact ⟨hdx, by simpa using hdy⟩
    rw [hemp] at hmem
    cases hmem
  refine ⟨?_, ?_, ?_, ?_⟩
  · show ((extract_entities text).foldl (kgStep docId)
        { g with documents := assocSet g.documents docId ⟨text, chunks, []⟩
        }).relationships
      ++ buildRels ((extract_entities text).foldl (kgStep docId)
        { g with documents := assocSet g.documents docId ⟨text, chunks, []⟩
        }).entities (extract_entities text)
      = g.relationships
        ++ buildRels (add_document g docId text chunks).entities
            (extract_entities text)
    rw [relationships_foldl_kgStep]
    rfl
  · intro r hr
    obtain ⟨hm1, hm2, hw, hnemp⟩ := buildRels_mem_fact _ _ r hr
    refine ⟨hw, hdoc r.1 hm1, hdoc r.2.1 hm2, ?_⟩
    rw [hw]
    have hnn : listInter (entDocs (add_document g docId text chunks).entities r.1)
        (entDocs (add_document g docId text chunks).entities r.2.1) ≠ [] :=
      fun h => hnemp (by rw [h]; rfl)
    exact List.length_pos.mpr hnn
  · intro e1 e2 he1 he2 hne12
    exact buildRels_pair_count _ (extract_entities text)
      (extract_entities_nodup text) hinter e1 e2 he1 he2 hne12
  · obtain ⟨hp, hmem, hcov⟩ :=
      buildEdges_spec (entityIndex (topEntities g0)) g0.relationships []
    exact ⟨hp, fun ed hed => (hmem ed hed).2,
      fun t ht hw => hcov t ht hw (by simp)⟩

/-- Witness for `relationships_per_pair`: ingesting `"Alice met Bob"` appends
exactly one triple for the unordered pair `{Alice, Bob}`. -/
theorem relationships_per_pair_witness :
    (buildRels (add_document emptyKG "A" "Alice met Bob".toList []).entities
        (extract_entities "Alice met Bob".toList)).countP
      (fun r => decide ((r.1 = "Alice".toList ∧ r.2.1 = "Bob".toList) ∨
        (r.1 = "Bob".toList ∧ r.2.1 = "Alice".toList))) = 1 :=
  (relationships_per_pair emptyKG "A" "Alice met Bob".toList [] emptyKG).2.2.1
    "Alice".toList "Bob".toList (by decide) (by decide) (by decide)

/-! ### ASCII case-mapping lemmas (for claim C10) -/

theorem char_toNat_ofNat {m : Nat} (h : m < 55296) : (Char.ofNat m).toNat = m := by
  rw [Char.ofNat, dif_pos (Or.inl h)]
  show (BitVec.ofNatLt m _).toNat = m
  exact BitVec.toNat_ofNatLt m _

theorem isUpperAZ_toUpper {c : Char} (h : isAlphaAZ c = true) :
    isUpperAZ (Char.toUpper c) = true := by
  rw [isAlphaAZ, Bool.or_eq_true] at h
  rw [Char.toUpper]
  by_cases hl : c.toNat ≥ 97 ∧ c.toNat ≤ 122
  · rw [if_pos hl]
    have hv : (Char.ofNat (c.toNat - 32)).toNat = c.toNat - 32 :=
      char_toNat_ofNat (by omega)
    rw [isUpperAZ, hv]
    simp only [Bool.and_eq_true, decide_eq_true_eq]
    omega
  · rw [if_neg hl]
    rcases h with h | h
    · exact h
    · rw [isLowerAZ, Bool.and_eq_true, decide_eq_true_eq, decide_eq_true_eq] at h
      omega

/-! ### Every extracted entity starts with an uppercase letter -/

theorem capWordAt_head {cs m rest : List Char}
    (h : capWordAt cs = some (m, rest)) : headIsUpper m = true := by
  cases cs with
  | nil => cases h
  | cons c cs' =>
    rw [capWordAt] at h
    by_cases hu : isUpperAZ c = true
    · rw [if_pos hu] at h
      by_cases he : (cs'.takeWhile isLowerAZ).isEmpty = true
      · rw [if_pos he] at h; cases h
      · rw [if_neg he] at h
        injection h with h1
        injection h1 with h2 h3
        rw [← h2]
        exact hu
    · rw [if_neg hu] at h; cases h

theorem capUnits_head (fuel : Nat) :
    ∀ (acc rest : List Char), ∃ t, (capUnits fuel acc rest).1 = acc ++ t := by
  induction fuel with
  | zero => intro acc rest; exact ⟨[], by simp [capUnits]⟩
  | succ fuel ih =>
    intro acc rest
    rw [capUnits]
    by_cases hsp : (rest.takeWhile pySpace).isEmpty = true
    · rw [if_pos hsp]; exact ⟨[], by simp⟩
    · rw [if_neg hsp]
      cases hw : capWordAt (rest.dropWhile pySpace) with
      | none =>
        show ∃ t, (acc, rest).1 = acc ++ t
        exact ⟨[], by simp⟩
      | some p =>
        obtain ⟨w, rest2⟩ := p
        show ∃ t, (if boundaryOk rest2 = true then
            capUnits fuel (acc ++ rest.takeWhile pySpace ++ w) rest2
          else (acc, rest)).1 = acc ++ t
        by_cases hb : boundaryOk rest2 = true
        · rw [if_pos hb]
          obtain ⟨t, ht⟩ := ih (acc ++ rest.takeWhile pySpace ++ w) rest2
          refine ⟨rest.takeWhile pySpace ++ w ++ t, ?_⟩
          rw [ht]
          simp [List.append_assoc]
        · rw [if_neg hb]
          exact ⟨[], by simp⟩

theorem capMatchAt_head {cs m rest : List Char}
    (h : capMatchAt cs = some (m, rest)) : headIsUpper m = true := by
  unfold capMatchAt at h
  cases hw : capWordAt cs with
  | none => rw [hw] at h; cases h
  | some p =>
    obtain ⟨w, r⟩ := p
    rw [hw] at h
    have h' : (if boundaryOk r = true then some (capUnits r.length w r) else none)
        = some (m, rest) := h
    by_cases hb : boundaryOk r = true
    · rw [if_pos hb] at h'
      injection h' with h1
      obtain ⟨t, ht⟩ := capUnits_head r.length w r
      have hwh := capWordAt_head hw
      have hm : m = w ++ t := by
        have h2 : (capUnits r.length w r).1 = m := by rw [h1]
        rw [← h2, ht]
      rw [hm]
      cases w with
      | nil => cases hwh
      | cons c w' => exact hwh
    · rw [if_neg hb] at h'
      cases h'

theorem capScanAux_head (fuel : Nat) :
    ∀ (prevWord : Bool) (cs : List Char) (m : List Char),
      m ∈ capScanAux fuel prevWord cs → headIsUpper m = true := by
  induction fuel with
  | zero => intro _ cs m hm; cases hm
  | succ fuel ih =>
    intro prevWord cs m hm
    cases cs with
    | nil => cases hm
    | cons c rest =>
      rw [capScanAux] at hm
      by_cases hp : prevWord = true
      · rw [if_pos hp] at hm
        exact ih _ _ m hm
      · rw [if_neg hp] at hm
        cases hc : capMatchAt (c :: rest) with
        | none =>
          rw [hc] at hm
          exact ih _ _ m hm
        | some p =>
          obtain ⟨m', rest'⟩ := p
          rw [hc] at hm
          have hm2 : m ∈ m' :: capScanAux fuel true rest' := hm
          rcases List.mem_cons.mp hm2 with rfl | hm3
          · exact capMatchAt_head hc
          · exact ih _ _ m hm3

theorem alphaRunsAux_head (fuel : Nat) :
    ∀ (prevWord : Bool) (l : List Char) (w : List Char),
      w ∈ alphaRunsAux fuel prevWord l →
      ∃ c t, w = c :: t ∧ isAlphaAZ c = true := by
  induction fuel with
  | zero => intro _ l w hw; cases hw
  | succ fuel ih =>
    intro prevWord l w hw
    cases l with
    | nil => cases hw
    | cons c cs =>
      rw [alphaRunsAux] at hw
      by_cases ha : isAlphaAZ c = true
      · rw [if_pos ha] at hw
        by_cases hcond : (!prevWord && boundaryOk ((c :: cs).dropWhile isAlphaAZ)
            && decide (4 ≤ ((c :: cs).takeWhile isAlphaAZ).length)) = true
        · rw [if_pos hcond] at hw
          rcases List.mem_cons.mp hw with rfl | hw'
          · refine ⟨c, cs.takeWhile isAlphaAZ, ?_, ha⟩
            show (c :: cs).takeWhile isAlphaAZ = c :: cs.takeWhile isAlphaAZ
            rw [List.takeWhile_cons, if_pos ha]
          · exact ih _ _ w hw'
        · rw [if_neg hcond] at hw
          exact ih _ _ w hw
      · rw [if_neg ha] at hw
        exact ih _ _ w hw

theorem mem_keys_counterAdd {α : Type _} [DecidableEq α] (m : List (α × Nat))
    (key : α) (p : α × Nat) (hp : p ∈ counterAdd m key) :
    p.1 ∈ m.map Prod.fst ∨ p.1 = key := by
  unfold counterAdd at hp
  cases hl : assocLookup m key with
  | some v =>
    rw [hl] at hp
    obtain ⟨q, hq, hpq⟩ := List.mem_map.mp hp
    left
    by_cases hk : q.1 = key
    · rw [if_pos hk] at hpq
      rw [← hpq]
      exact List.mem_map.mpr ⟨q, hq, rfl⟩
    · rw [if_neg hk] at hpq
      rw [← hpq]
      exact List.mem_map.mpr ⟨q, hq, rfl⟩
  | none =>
    rw [hl, List.mem_append] at hp
    rcases hp with hp | hp
    · exact Or.inl (List.mem_map.mpr ⟨p, hp, rfl⟩)
    · right
      have hpk := List.mem_singleton.mp hp
      rw [hpk]

theorem mem_keys_foldl_counterAdd {α : Type _} [DecidableEq α] :
    ∀ (l : List α) (m : List (α × Nat)) (p : α × Nat),
      p ∈ l.foldl counterAdd m → p.1 ∈ m.map Prod.fst ∨ p.1 ∈ l := by
  intro l
  induction l with
  | nil => intro m p hp; exact Or.inl (List.mem_map.mpr ⟨p, hp, rfl⟩)
  | cons a l ih =>
    intro m p hp
    rw [List.foldl_cons] at hp
    rcases ih (counterAdd m a) p hp with h | h
    · obtain ⟨q, hq, hqp⟩ := List.mem_map.mp h
      rcases mem_keys_counterAdd m a q hq with h' | h'
      · exact Or.inl (hqp ▸ h')
      · exact Or.inr (by simp [← hqp, h'])
    · exact Or.inr (by simp [h])

theorem extract_entities_headIsUpper (text : List Char) :
    ∀ e ∈ extract_entities text, headIsUpper e = true := by
  intro e he
  unfold extract_entities at he
  rcases mem_foldl_setAdd (fun wf : Entity × Nat => pyCapitalize wf.1)
      (fun wf => 3 ≤ wf.2 ∧ wf.1 ∉ stopwords) _ _ e he with he1 | ⟨wf, hwf, rfl⟩
  · rcases mem_foldl_setAdd (fun m : List Char => m)
        (fun m => pyLower m ∉ stopwords ∧ 2 < m.length) _ _ e he1
      with h0 | ⟨m, hm, heq⟩
    · cases h0
    · rw [heq]
      exact capScanAux_head _ _ _ m hm
  · rcases mem_keys_foldl_counterAdd _ _ wf hwf with h0 | hw
    · simp at h0
    · obtain ⟨c, t, hct, hca⟩ := alphaRunsAux_head _ _ _ wf.1 hw
      rw [hct]
      show headIsUpper (Char.toUpper c :: t.map Char.toLower) = true
      exact isUpperAZ_toUpper hca

theorem add_document_freq_keys (g : KG) (docId : String) (text : List Char)
    (chunks : List String) (p : Entity × Nat)
    (hp : p ∈ (add_document g docId text chunks).entityFrequencies) :
    p.1 ∈ g.entityFrequencies.map Prod.fst ∨ p.1 ∈ extract_entities text := by
  have hEq : (add_document g docId text chunks).entityFrequencies
      = (extract_entities text).foldl counterAdd g.entityFrequencies := by
    show ((extract_entities text).foldl (kgStep docId)
        { g with documents := assocSet g.documents docId ⟨text, chunks, []⟩
        }).entityFrequencies = _
    rw [entityFrequencies_foldl_kgStep]
  rw [hEq] at hp
  exact mem_keys_foldl_counterAdd _ _ p hp

theorem ofDocs_freq_keys (ds : List (String × List Char × List String)) :
    ∀ p ∈ (ofDocs ds).entityFrequencies, headIsUpper p.1 = true := by
  suffices h : ∀ (ds' : List (String × List Char × List String)) (g : KG),
      (∀ q ∈ g.entityFrequencies, headIsUpper q.1 = true) →
      ∀ p ∈ (ds'.foldl (fun g d => add_document g d.1 d.2.1 d.2.2)
          g).entityFrequencies, headIsUpper p.1 = true by
    intro p hp
    exact h ds emptyKG (by intro q hq; cases hq) p hp
  intro ds'
  induction ds' with
  | nil => intro g hg p hp; exact hg p hp
  | cons d rest ih =>
    intro g hg p hp
    rw [List.foldl_cons] at hp
    refine ih _ ?_ p hp
    intro q hq
    rcases add_document_freq_keys g d.1 d.2.1 d.2.2 q hq with h' | h'
    · obtain ⟨r, hr, hrq⟩ := List.mem_map.mp h'
      rw [← hrq]
      exact hg r hr
    · exact extract_entities_headIsUpper _ _ h'

theorem topEntities_headIsUpper (g : KG)
    (hg : ∀ q ∈ g.entityFrequencies, headIsUpper q.1 = true) :
    ∀ e ∈ topEntities g, headIsUpper e = true := by
  intro e he
  unfold topEntities at he
  obtain ⟨p, hp, rfl⟩ := List.mem_map.mp he
  have hp1 : p ∈ sortByLe bySndDesc g.entityFrequencies :=
    List.mem_of_mem_take hp
  have hp2 : p ∈ g.entityFrequencies := (sortByLe_perm _ _).mem_iff.mp hp1
  exact hg p hp2

/-- Claim C10: every entity produced by the extraction policy begins with an
uppercase ASCII letter (a capitalized-sequence match begins with `[A-Z]`, and
a frequent-term entity is capitalized before insertion), so every node
returned by `build_graph` on a builder populated by `add_document` has type
"Proper Noun": the "Concept" branch of the type derivation is unreachable. -/
theorem nodes_all_proper_noun (text : List Char)
    (ds : List (String × List Char × List String)) (nodes : List GNode) :
    (∀ e ∈ extract_entities text, headIsUpper e = true) ∧
    (assocLookup (build_graph (ofDocs ds)) "nodes" = some (GVal.nodesV nodes) →
      ∀ nd ∈ nodes, nd.type = "Proper Noun") := by
  refine ⟨extract_entities_headIsUpper text, ?_⟩
  intro hlook nd hnd
  unfold build_graph at hlook
  by_cases hemp : (topEntities (ofDocs ds)).isEmpty = true
  · rw [if_pos hemp] at hlook
    have hinj : some (GVal.nodesV ([] : List GNode)) = some (GVal.nodesV nodes) := by
      simpa [assocLookup] using hlook
    injection hinj with hinj1
    injection hinj1 with hinj2
    rw [← hinj2] at hnd
    cases hnd
  · rw [if_neg hemp] at hlook
    have hinj : some (GVal.nodesV ((enumerateFrom 0 (topEntities (ofDocs ds))).map
        (fun ie => mkNode (ofDocs ds) ie.1 ie.2))) = some (GVal.nodesV nodes) := by
      simpa [assocLookup] using hlook
    injection hinj with hinj1
    injection hinj1 with hinj2
    rw [← hinj2] at hnd
    obtain ⟨ie, hie, rfl⟩ := List.mem_map.mp hnd
    have he : ie.2 ∈ topEntities (ofDocs ds) := (mem_enumerateFrom hie).2.2
    have hup := topEntities_headIsUpper (ofDocs ds) (ofDocs_freq_keys ds) ie.2 he
    show (if headIsUpper ie.2 = true then "Proper Noun" else "Concept")
      = "Proper Noun"
    rw [if_pos hup]

/-- Witness for `nodes_all_proper_noun`: the frequent term `wolf` is stored
capitalized. -/
theorem nodes_all_proper_noun_witness :
    headIsUpper "Wolf".toList = true :=
  (nodes_all_proper_noun "wolf wolf wolf".toList [] []).1 "Wolf".toList (by decide)
